import Mathlib

/-!
Verification of `alignparse/ccs.py` (module `alignparse.ccs`).

This file gives a shallow embedding of the computational core of `ccs.py`:

* report parsing (`_report_to_stats_v4`, `_report_to_stats_v3`, `report_to_stats`);
* pass/length extraction from FASTQ records (`get_ccs_stats`);
* the `Summary.__init__` consistency check;
* the `Summaries.zmw_stats` cross-run aggregation.

Modelling conventions, used throughout:

* A text file is given by its list of newline-terminated lines
  (`List String`); none of the strings contains a newline character.
  Reading the file from disk (and the `os.path.isfile` checks) is outside
  the model: the file contents are parameters.
* Python floats are modelled as exact rationals (`ℚ`).  Rational
  arithmetic inside the executable model is performed by `qadd` / `qdiv` /
  `qsum` below, which are proved equal to `+`, `/` and `List.sum`
  (they exist only because the library `Rat.add` is `@[irreducible]`,
  which blocks kernel evaluation of concrete witnesses).
* Python regular expressions are modelled by explicit character-list
  matchers that follow the structure of the concrete patterns in the
  source.  `\s` is the standard whitespace class, `\w` is modelled as
  ASCII alphanumeric plus underscore.
* Python exceptions are modelled by `Except PyErr`; `pandas` data frames
  by lists of structures, one structure per row, computed columns
  becoming structure fields.
* `pandas.merge(how = outer)` on all common columns is modelled as list
  append; this is exact whenever no row of the left table coincides with
  a synthetic row of the right table, which the well-formedness
  hypotheses of the aggregation theorems guarantee.  `groupby` sorts its
  keys lexicographically, modelled by an insertion sort on strings.
  `sort_values` over distinct sort keys is order-deterministic, so the
  stable `List.insertionSort` models it exactly under the same
  hypotheses.
-/

/-! ## Executable rational arithmetic -/

/-- Kernel-computable addition on `ℚ` (the library `Rat.add` is
`@[irreducible]`); proved equal to `+` in `qadd_eq`. -/
def qadd (a b : ℚ) : ℚ := Rat.divInt (a.num * b.den + b.num * a.den) (a.den * b.den)

/-- Kernel-computable division on `ℚ`; proved equal to `/` in `qdiv_eq`. -/
def qdiv (a b : ℚ) : ℚ := Rat.divInt (a.num * b.den) (a.den * b.num)

/-- Kernel-computable list sum on `ℚ`; proved equal to `List.sum` in `qsum_eq`. -/
def qsum : List ℚ → ℚ
  | [] => 0
  | x :: xs => qadd x (qsum xs)

theorem rat_num_eq (a : ℚ) : (a.num : ℚ) = a * (a.den : ℚ) :=
  (div_eq_iff (by exact_mod_cast a.den_ne_zero)).mp (Rat.num_div_den a)

theorem qadd_eq (a b : ℚ) : qadd a b = a + b := by
  rw [qadd, Rat.divInt_eq_div]
  push_cast
  have h1 : ((a.den : ℚ)) ≠ 0 := by exact_mod_cast a.den_ne_zero
  have h2 : ((b.den : ℚ)) ≠ 0 := by exact_mod_cast b.den_ne_zero
  field_simp
  rw [rat_num_eq a, rat_num_eq b]
  ring

theorem qdiv_eq (a b : ℚ) : qdiv a b = a / b := by
  rw [qdiv, Rat.divInt_eq_div]
  push_cast
  have h1 : ((a.den : ℚ)) ≠ 0 := by exact_mod_cast a.den_ne_zero
  have h2 : ((b.den : ℚ)) ≠ 0 := by exact_mod_cast b.den_ne_zero
  rcases eq_or_ne b 0 with hb | hb
  · subst hb; simp
  · field_simp
    rw [rat_num_eq a, rat_num_eq b]
    ring

theorem qsum_eq (l : List ℚ) : qsum l = l.sum := by
  induction l with
  | nil => rfl
  | cons x xs ih => rw [qsum, qadd_eq, ih, List.sum_cons]

/-! ## Character-level helpers -/

/-- The whitespace class of Python regexes and `str.strip`. -/
def isSpaceChar (c : Char) : Bool :=
  c = ' ' || c = '\t' || c = '\n' || c = '\r' || c = Char.ofNat 11 || c = Char.ofNat 12

/-- The regex class `\w` (ASCII reading: letters, digits, underscore). -/
def isWordChar (c : Char) : Bool := c.isAlpha || c.isDigit || c = '_'

/-- Does the first list occur as an initial segment of the second? -/
def leadsWith : List Char → List Char → Bool
  | [], _ => true
  | _ :: _, [] => false
  | p :: ps, c :: cs => p == c && leadsWith ps cs

/-- Does the string start with the pattern (pandas `str.match` with an
anchored literal pattern)? -/
def strLeads (pat s : String) : Bool := leadsWith pat.data s.data

def charsContain (pat : List Char) : List Char → Bool
  | [] => leadsWith pat []
  | c :: cs => leadsWith pat (c :: cs) || charsContain pat cs

/-- Substring test (pandas `str.contains` with a literal pattern). -/
def strContainsB (s pat : String) : Bool := charsContain pat.data s.data

/-- Longest prefix satisfying the predicate, and the rest. -/
def spanP (p : Char → Bool) : List Char → List Char × List Char
  | [] => ([], [])
  | c :: cs => if p c then ((spanP p cs).1.cons c, (spanP p cs).2) else ([], c :: cs)

/-- Greedy `\d+`. -/
def takeDigits (cs : List Char) : List Char × List Char := spanP Char.isDigit cs

/-- Value of a nonempty digit string. -/
def digitsVal (ds : List Char) : Nat := ds.foldl (fun n c => 10 * n + (c.toNat - '0'.toNat)) 0

/-- Strip the exact literal prefix, or fail. -/
def dropLit : List Char → List Char → Option (List Char)
  | [], cs => some cs
  | _ :: _, [] => none
  | p :: ps, c :: cs => if p == c then dropLit ps cs else none

/-- Drop a run of whitespace. -/
def dropSpaces : List Char → List Char
  | [] => []
  | c :: cs => if isSpaceChar c then dropSpaces cs else c :: cs

/-- Greedy `\s+` (at least one whitespace character). -/
def dropSpaces1 : List Char → Option (List Char)
  | [] => none
  | c :: cs => if isSpaceChar c then some (dropSpaces cs) else none

/-- Python `str.split(sep)` on a single separator character. -/
def splitOnChar (sep : Char) : List Char → List (List Char)
  | [] => [[]]
  | c :: cs =>
    if c == sep then [] :: splitOnChar sep cs
    else
      match splitOnChar sep cs with
      | [] => [[c]]
      | p :: ps => (c :: p) :: ps

/-- Python `str.strip()`. -/
def trimChars (cs : List Char) : List Char :=
  ((dropSpaces ((dropSpaces cs).reverse)).reverse)

/-- First whitespace-separated token, as in Python `str.split()[0]`
(empty when there is no token). -/
def firstTokenChars (cs : List Char) : List Char :=
  (spanP (fun c => !isSpaceChar c) (dropSpaces cs)).1

def natOfDigits (ds : List Char) : Option Nat :=
  if !ds.isEmpty && ds.all Char.isDigit then some (digitsVal ds) else none

/-- Python `int()` on a decimal string with optional sign and
surrounding whitespace. -/
def intOfChars (cs : List Char) : Option Int :=
  match trimChars cs with
  | '-' :: ds => (natOfDigits ds).map (fun n => -(n : Int))
  | '+' :: ds => (natOfDigits ds).map (fun n => (n : Int))
  | ds => (natOfDigits ds).map (fun n => (n : Int))

/-- Python `float()` on a plain decimal literal: optional sign, integer
part, optional point and fractional part (exponents, `inf` and `nan`
are outside the model). -/
def floatOfChars (cs : List Char) : Option ℚ :=
  let t := trimChars cs
  let sgnNeg : Bool := match t with | '-' :: _ => true | _ => false
  let t2 : List Char := match t with
    | '-' :: r => r
    | '+' :: r => r
    | r => r
  let ip := (takeDigits t2).1
  let r2 := (takeDigits t2).2
  match r2 with
  | [] =>
    if ip.isEmpty then none
    else some (if sgnNeg then -(mkRat (digitsVal ip) 1) else mkRat (digitsVal ip) 1)
  | '.' :: r3 =>
    let fp := (takeDigits r3).1
    let r4 := (takeDigits r3).2
    if r4.isEmpty && !(ip.isEmpty && fp.isEmpty) then
      let v : ℚ := qadd (mkRat (digitsVal ip) 1) (mkRat (digitsVal fp) (10 ^ fp.length))
      some (if sgnNeg then -v else v)
    else none
  | _ => none

/-- Option-valued `List.map`: `some` exactly when every element maps to
`some`. -/
def mapOption (f : α → Option β) : List α → Option (List β)
  | [] => some []
  | a :: as =>
    match f a, mapOption f as with
    | some b, some bs => some (b :: bs)
    | _, _ => none

/-! ## Report parsing: the data model -/

/-- One row of a parsed report: the `status` / `number` / `fraction`
columns of the data frames built by `report_to_stats`. -/
structure CatRow where
  status : String
  number : Int
  fraction : ℚ
deriving DecidableEq, Repr

/-- Python exceptions relevant to the modelled code paths. -/
inductive PyErr where
  | ioError (msg : String)
  | valueError (msg : String)
  | typeError (msg : String)
deriving DecidableEq, Repr

/-! ## Layout A (`_report_to_stats_v4`, ccs.py lines 568-603)

The regex (ccs.py lines 577-584):

    ^ZMWs input\s+\(A\)\s+:\s+\d+\n
    ZMWs generating CCS\s+\(B\)\s+:\s+(?P<n_generated>\d+) \S+\n
    ZMWs filtered\s+\(C\)\s+:\s+\d+ \S+\n
    \n
    Exclusive ZMW counts for \(C\):\n
    (?P<failed_text>([\w \-]+: \d+ \S+\n)+)$
-/

/-- Common shape `LABEL\s+\(X\)\s+:\s+` of the three header lines. -/
def v4Header (label paren : String) (cs : List Char) : Option (List Char) :=
  (dropLit label.data cs).bind fun r1 =>
  (dropSpaces1 r1).bind fun r2 =>
  (dropLit paren.data r2).bind fun r3 =>
  (dropSpaces1 r3).bind fun r4 =>
  (dropLit [':'] r4).bind fun r5 =>
  dropSpaces1 r5

/-- Line `ZMWs input\s+\(A\)\s+:\s+\d+`. -/
def v4InputLine (s : String) : Bool :=
  match v4Header "ZMWs input" "(A)" s.data with
  | none => false
  | some r => !(takeDigits r).1.isEmpty && (takeDigits r).2.isEmpty

/-- Line `LABEL\s+\(X\)\s+:\s+(\d+) \S+`, returning the count. -/
def v4CountLine (label paren : String) (s : String) : Option Nat :=
  match v4Header label paren s.data with
  | none => none
  | some r =>
    let ds := (takeDigits r).1
    if ds.isEmpty then none
    else
      match (takeDigits r).2 with
      | ' ' :: t =>
        if !t.isEmpty && t.all (fun c => !isSpaceChar c) then some (digitsVal ds) else none
      | _ => none

/-- Line `[\w \-]+: \d+ \S+` of the failure block. -/
def v4FailedLine (s : String) : Bool :=
  let cls := (spanP (fun c => isWordChar c || c == ' ' || c == '-') s.data).1
  let rest := (spanP (fun c => isWordChar c || c == ' ' || c == '-') s.data).2
  if cls.isEmpty then false
  else
    match rest with
    | ':' :: ' ' :: r2 =>
      let ds := (takeDigits r2).1
      if ds.isEmpty then false
      else
        match (takeDigits r2).2 with
        | ' ' :: t => !t.isEmpty && t.all (fun c => !isSpaceChar c)
        | _ => false
    | _ => false

/-- Validate the tail of a layout-A report: failure-count lines, with
the optional final empty line that the terminal `$` of the regex admits
(it matches just before a final newline). -/
def v4FailedTail : List String → Option (List String)
  | [] => some []
  | [s] => if s = "" then some [] else if v4FailedLine s then some [s] else none
  | s :: rest => if v4FailedLine s then (v4FailedTail rest).map (s :: ·) else none

/-- Match of the full layout-A regex against the report lines, returning
the `n_generated` capture and the lines of the `failed_text` capture. -/
def v4Decompose (lines : List String) : Option (Nat × List String) :=
  match lines with
  | l0 :: l1 :: l2 :: l3 :: l4 :: rest =>
    match v4CountLine "ZMWs generating CCS" "(B)" l1 with
    | none => none
    | some n =>
      match v4FailedTail rest with
      | none => none
      | some fls =>
        if v4InputLine l0 && (v4CountLine "ZMWs filtered" "(C)" l2).isSome
            && decide (l3 = "") && decide (l4 = "Exclusive ZMW counts for (C):")
            && !fls.isEmpty
        then some (n, fls) else none
  | _ => none

/-- Mirror of ccs.py lines 589-592: one failure record from one line,
`(line.split(colon)[0].strip(), int(line.split(colon)[1].split()[0]))`. -/
def parseFailedRecord (line : String) : String × Int :=
  let parts := splitOnChar ':' line.data
  let status := String.mk (trimChars (parts.headD []))
  let num := (intOfChars (firstTokenChars (parts.getD 1 []))).getD 0
  (status, num)

/-- The `(status, number)` pairs of the layout-A data frame: the
`ZMWs generating CCS` row prepended to the failure records
(ccs.py lines 593-598). -/
def v4Pairs (ng : Nat × List String) : List (String × Int) :=
  ("ZMWs generating CCS", (ng.1 : Int)) :: ng.2.map parseFailedRecord

/-- The layout-A rows with every `fraction` recomputed as `number`
over the total of the produced `number` column (ccs.py line 600). -/
def v4Rows (ng : Nat × List String) : List CatRow :=
  (v4Pairs ng).map fun p => ⟨p.1, p.2, qdiv (p.2 : ℚ) (((((v4Pairs ng).map (·.2)).sum : Int)) : ℚ)⟩

/-- Mirror of `_report_to_stats_v4` (ccs.py lines 568-603). -/
def report_to_stats_v4 (lines : List String) : Option (List CatRow) :=
  (v4Decompose lines).map v4Rows

/-! ## Layout B (`_report_to_stats_v3`, ccs.py lines 606-628)

The regex (ccs.py lines 615-616):

    ^ZMW Yield\n(?P<zmw>(.+\n)+)\n\n(?:Subread Yield\n(?P<subread>(.+\n)+))?$
-/

/-- Match of the layout-B regex against the report lines, returning the
lines of the `zmw` capture and (when present) of the `subread` capture.
The `$` may match just before a final newline, hence the optional
trailing empty line. -/
def v3Decompose (lines : List String) : Option (List String × Option (List String)) :=
  match lines with
  | [] => none
  | l0 :: rest =>
    if l0 = "ZMW Yield" then
      let zmw := rest.takeWhile (fun s => !s.isEmpty)
      let after := rest.drop zmw.length
      if zmw.isEmpty then none
      else
        match after with
        | "" :: "" :: rest2 =>
          match rest2 with
          | [] => some (zmw, none)
          | [""] => some (zmw, none)
          | l :: rest3 =>
            if l = "Subread Yield" then
              let sub := rest3.takeWhile (fun s => !s.isEmpty)
              let after2 := rest3.drop sub.length
              if sub.isEmpty then none
              else
                match after2 with
                | [] => some (zmw, some sub)
                | [""] => some (zmw, some sub)
                | _ => none
            else none
        | _ => none
    else none

/-- One CSV data line as consumed by `pd.read_csv` with columns
`status`, `number`, `percent`, followed by the fraction assignment
`percent.str.slice(None, -1).astype(float) / 100` (ccs.py lines
621-625).  `none` models the exception a malformed line raises. -/
def v3ParseRow (line : String) : Option CatRow :=
  match splitOnChar ',' line.data with
  | [s, n, p] =>
    match intOfChars n, floatOfChars p.dropLast with
    | some num, some pv => some ⟨String.mk s, num, qdiv pv (100 : ℚ)⟩
    | _, _ => none
  | _ => none

/-- Conversion of the `zmw` block lines to rows; `.error` models a
Python exception escaping from `read_csv` / `astype(float)` on a
malformed line. -/
def v3Convert (zmw : List String) : Except PyErr (Option (List CatRow)) :=
  match mapOption v3ParseRow zmw with
  | none => .error (.valueError "could not convert report row")
  | some rows => .ok (some rows)

/-- Mirror of `_report_to_stats_v3` with its default `stat_type = zmw`
(ccs.py lines 606-628): only the `zmw` capture contributes rows.
`.ok none` models the `return None` taken when the regex does not
match. -/
def report_to_stats_v3 (lines : List String) : Except PyErr (Option (List CatRow)) :=
  match v3Decompose lines with
  | none => .ok none
  | some zs => v3Convert zs.1

/-- Mirror of `report_to_stats` (ccs.py lines 560-565): try layout A,
then layout B, first match wins; raise naming the report file when
neither matches. -/
def report_to_stats (reportfile : String) (lines : List String) : Except PyErr (List CatRow) :=
  match report_to_stats_v4 lines with
  | some df => .ok df
  | none =>
    match report_to_stats_v3 lines with
    | .error e => .error e
    | .ok (some df) => .ok df
    | .ok none => .error (.ioError ("Cannot match report in " ++ reportfile))

instance exceptDecEq {ε α : Type} [DecidableEq ε] [DecidableEq α] : DecidableEq (Except ε α) :=
  fun x y =>
    match x, y with
    | .error a, .error b =>
      if h : a = b then .isTrue (by rw [h]) else .isFalse (fun hh => h (by injection hh))
    | .ok a, .ok b =>
      if h : a = b then .isTrue (by rw [h]) else .isFalse (fun hh => h (by injection hh))
    | .error _, .ok _ => .isFalse (fun hh => Except.noConfusion hh)
    | .ok _, .error _ => .isFalse (fun hh => Except.noConfusion hh)

/-! ## FASTQ records (`get_ccs_stats`, ccs.py lines 631-724)

A FASTQ record is modelled by the length of its sequence and its
optional comment field; the accuracy column is computed by
`alignparse.utils.qvals_to_accuracy`, which lives outside this module
and is not needed by any claim, so it is omitted from the record. -/

structure FastqRec where
  seqLen : Nat
  comment : Option String
deriving DecidableEq, Repr

/-- Match of the pass regex
`(?:^|\s)TAG:i:(?P<pass>\d+)(?:\s|$)` at the current position (the
position just after the `^|\s` alternative): the literal pattern, then
a maximal nonempty digit run, then whitespace or end of string. -/
def matchPassAt (pat cs : List Char) : Option Nat :=
  match dropLit pat cs with
  | none => none
  | some rest =>
    let ds := (takeDigits rest).1
    if ds.isEmpty then none
    else
      match (takeDigits rest).2 with
      | [] => some (digitsVal ds)
      | c :: _ => if isSpaceChar c then some (digitsVal ds) else none

/-- Leftmost-match scan of `re.search` for the pass regex; `prevOk`
records whether the previous character satisfies the `^|\s`
alternative. -/
def findPassFrom (pat : List Char) (prevOk : Bool) : List Char → Option Nat
  | [] => none
  | c :: cs =>
    match (if prevOk then matchPassAt pat (c :: cs) else none) with
    | some v => some v
    | none => findPassFrom pat (isSpaceChar c) cs

/-- Search the comment for the pass annotation with the given tag
(the tag is assumed free of regex metacharacters, as the default
`np`). -/
def findPass (tag comment : String) : Option Nat :=
  findPassFrom (tag.data ++ [':', 'i', ':']) true comment.data

/-- Pass count of one record: `None` when the comment is missing
(or empty, which is falsy in Python) or the annotation does not
match. -/
def recPass (tag : String) (r : FastqRec) : Option Nat :=
  match r.comment with
  | none => none
  | some c => if c.data.isEmpty then none else findPass tag c

/-- The loop of ccs.py lines 704-716 restricted to the `passes`
accumulator: once `passes` has been set to `None` it stays `None`. -/
def passesLoop (tag : String) : Option (List Nat) → List FastqRec → Option (List Nat)
  | acc, [] => acc
  | none, _ :: rs => passesLoop tag none rs
  | some l, r :: rs =>
    match recPass tag r with
    | none => passesLoop tag none rs
    | some p => passesLoop tag (some (l ++ [p])) rs

/-- The `(passes, length)` part of the named tuple returned by
`get_ccs_stats` (accuracy omitted, see `FastqRec`). -/
structure CCS_Stats where
  passes : Option (List Nat)
  length : List Nat
deriving DecidableEq, Repr

/-- Mirror of `get_ccs_stats` (ccs.py lines 693-724).  An empty
`pass_tag` is falsy in Python, so passes are not collected at all. -/
def get_ccs_stats (recs : List FastqRec) (pass_tag : String) : CCS_Stats :=
  { passes := if pass_tag.data.isEmpty then none else passesLoop pass_tag (some []) recs,
    length := recs.map (·.seqLen) }

/-! ## `Summary.__init__` (ccs.py lines 73-104) -/

/-- The attributes a constructed `Summary` carries (accuracy omitted,
see `FastqRec`). -/
structure SummaryS where
  name : String
  fastqfile : String
  reportfile : Option String
  zmw_stats : Option (List CatRow)
  passes : Option (List Nat)
  length : List Nat
deriving DecidableEq, Repr

/-- Mirror of `Summary.__init__` (ccs.py lines 73-104).  The FASTQ and
report files are passed by name together with their contents; the
`os.path.isfile` checks are outside the model.  When the report is
present, the sum of `number` over rows whose status matches `^Success`
is compared with the number of reads; on mismatch the constructor
raises.  Note the raised message interpolates `len(self.passes)`, which
is a `TypeError` when `passes` is `None`. -/
def Summary_init (name fastqfile : String) (recs : List FastqRec)
    (report : Option (String × List String)) : Except PyErr SummaryS :=
  let stats := get_ccs_stats recs "np"
  match report with
  | none => .ok ⟨name, fastqfile, none, none, stats.passes, stats.length⟩
  | some rp =>
    match report_to_stats rp.1 rp.2 with
    | .error e => .error e
    | .ok df =>
      let nccs : Int := ((df.filter (fun r => strLeads "Success" r.status)).map (·.number)).sum
      if (stats.length.length : Int) = nccs then
        .ok ⟨name, fastqfile, some rp.1, some df, stats.passes, stats.length⟩
      else
        match stats.passes with
        | none => .error (.typeError "object of type 'NoneType' has no len()")
        | some ps =>
          .error (.valueError ("`fastqfile`, `reportfile` differ on number CCSs.\n"
            ++ fastqfile ++ " has " ++ toString ps.length ++ "\n"
            ++ rp.1 ++ " has " ++ toString nccs))

/-! ## `Summaries.zmw_stats` (ccs.py lines 321-410)

The aggregation operates on the per-run `zmw_stats` tables of the
summaries; a run is the pair of its name and its table. -/

/-- A row of the long concatenated table before computed columns. -/
structure RawRow where
  name : String
  status : String
  number : Int
  fraction : ℚ
deriving DecidableEq, Repr

/-- A row with the computed `max_fraction` and `failed` columns. -/
structure AggRow where
  name : String
  status : String
  number : Int
  fraction : ℚ
  max_fraction : ℚ
  failed : Bool
deriving DecidableEq, Repr

/-- `pd.concat` of the per-run tables tagged with the run name
(ccs.py lines 344-347). -/
def concatRuns : List (String × List CatRow) → List RawRow
  | [] => []
  | p :: rest => p.2.map (fun r => ⟨p.1, r.status, r.number, r.fraction⟩) ++ concatRuns rest

/-- Maximum of a list of rationals (`transform(max)` over a group);
the `0` default is never used on a nonempty group. -/
def listMax : List ℚ → ℚ
  | [] => 0
  | x :: xs => xs.foldl max x

/-- `groupby(status).fraction.transform(max)` over the long table. -/
def maxFracRaw (rs : List RawRow) (s : String) : ℚ :=
  listMax ((rs.filter (fun r => r.status == s)).map (·.fraction))

/-- The `.assign` of ccs.py lines 348-355: add the cross-run
`max_fraction` and the `failed` substring test to every row. -/
def withCols (rs : List RawRow) : List AggRow :=
  rs.map fun r =>
    ⟨r.name, r.status, r.number, r.fraction, maxFracRaw rs r.status,
      strContainsB r.status "Failed"⟩

/-- The `other` column of ccs.py lines 353-354. -/
def isOther (minfailfrac : ℚ) (e : AggRow) : Bool :=
  e.failed && decide (e.max_fraction < minfailfrac)

/-- Unique elements in order of first occurrence, skipping elements
already seen. -/
def uniqueFirstFrom (seen : List String) : List String → List String
  | [] => []
  | x :: xs =>
    if x ∈ seen then uniqueFirstFrom seen xs
    else x :: uniqueFirstFrom (x :: seen) xs

/-- Unique elements in order of first occurrence (`pandas.unique`). -/
def uniqueFirst (l : List String) : List String := uniqueFirstFrom [] l

/-- Lexicographic order on strings by character code (the order Python
sorts `groupby` keys in). -/
def charsLe : List Char → List Char → Bool
  | [], _ => true
  | _ :: _, [] => false
  | a :: as, b :: bs => if a == b then charsLe as bs else decide (a < b)

def strLe (a b : String) : Prop := charsLe a.data b.data = true

instance strLeDec : DecidableRel strLe :=
  fun a b => inferInstanceAs (Decidable (charsLe a.data b.data = true))

/-- The sorted unique group keys a `groupby(name)` iterates over. -/
def groupKeys (l : List String) : List String :=
  uniqueFirst (List.insertionSort strLe l)

/-- `transform(max)` of the `fraction` column over an `AggRow` table. -/
def maxFracAggF (es : List AggRow) (s : String) : ℚ :=
  listMax ((es.filter (fun e => e.status == s)).map (·.fraction))

/-- The rows selected by `df.query(other)` (ccs.py line 358). -/
def otherCands (m : ℚ) (es : List AggRow) : List AggRow := es.filter (isOther m)

/-- The keys of the `groupby(name)` over the `other` rows. -/
def otherNames (m : ℚ) (es : List AggRow) : List String :=
  groupKeys ((otherCands m es).map (·.name))

/-- One aggregated group of `other_df` before the `max_fraction`
assignment: `number` and `fraction` summed, `failed` any-ed, status set
to the synthetic label (ccs.py lines 359-362). -/
def otherBaseRow (m : ℚ) (es : List AggRow) (n : String) : AggRow :=
  let g := (otherCands m es).filter (fun e => e.name == n)
  ⟨n, "Failed -- Other reason", (g.map (·.number)).sum, qsum (g.map (·.fraction)), 0,
    g.any (·.failed)⟩

def otherBase (m : ℚ) (es : List AggRow) : List AggRow :=
  (otherNames m es).map (otherBaseRow m es)

/-- Mirror of `other_df` (ccs.py lines 358-367): the aggregated groups
with `max_fraction` assigned as the `transform(max)` of the summed
fractions. -/
def otherDf (m : ℚ) (es : List AggRow) : List AggRow :=
  (otherBase m es).map fun e => { e with max_fraction := maxFracAggF (otherBase m es) e.status }

/-- Mirror of ccs.py lines 369-373: keep the non-`other` rows and merge
in `other_df` (outer merge on all columns, modelled as append — exact
when no original row coincides with a synthetic row). -/
def afterOther (m : ℚ) (es : List AggRow) : List AggRow :=
  es.filter (fun e => !isOther m e) ++ otherDf m es

/-- The rows selected by the `^Success` query (ccs.py line 377). -/
def succRows (es : List AggRow) : List AggRow :=
  es.filter (fun e => strLeads "Success" e.status)

/-- The keys of the `groupby(name)` over the success rows. -/
def succNames (es : List AggRow) : List String := groupKeys ((succRows es).map (·.name))

/-- One aggregated group of `success_df`: `number` and `fraction`
summed, `failed` any-ed, `max_fraction` max-ed, status set to the
synthetic label (ccs.py lines 378-382). -/
def succRow (es : List AggRow) (n : String) : AggRow :=
  let g := (succRows es).filter (fun e => e.name == n)
  ⟨n, "Success -- CCS generated", (g.map (·.number)).sum, qsum (g.map (·.fraction)),
    listMax (g.map (·.max_fraction)), g.any (·.failed)⟩

/-- Mirror of `success_df` (ccs.py lines 376-383). -/
def successDf (es : List AggRow) : List AggRow := (succNames es).map (succRow es)

/-- Mirror of ccs.py lines 375-387 (the `groupsuccess` branch). -/
def afterSuccess (groupsuccess : Bool) (es : List AggRow) : List AggRow :=
  if groupsuccess then es.filter (fun e => !strLeads "Success" e.status) ++ successDf es
  else es

/-- The long concatenated table with its computed columns (ccs.py
lines 344-356). -/
def baseTable (runs : List (String × List CatRow)) : List AggRow :=
  withCols (concatRuns runs)

/-- The fully merged table before the final ordering. -/
def aggTable (runs : List (String × List CatRow)) (m : ℚ) (g : Bool) : List AggRow :=
  afterSuccess g (afterOther m (baseTable runs))

/-- Ordering used to compute the status categories (ccs.py lines
391-396): sort by `failed` ascending then `max_fraction` descending. -/
def stRel (a b : AggRow) : Prop :=
  (a.failed = b.failed ∧ b.max_fraction ≤ a.max_fraction) ∨
    (a.failed = false ∧ b.failed = true)

instance stRelDec : DecidableRel stRel :=
  fun a b => inferInstanceAs (Decidable (_ ∨ _))

instance stRelTotal : IsTotal AggRow stRel where
  total a b := by
    rcases Bool.eq_false_or_eq_true a.failed with ha | ha <;>
      rcases Bool.eq_false_or_eq_true b.failed with hb | hb <;>
      rcases le_total a.max_fraction b.max_fraction with h | h <;>
      simp [stRel, ha, hb, h]

instance stRelTrans : IsTrans AggRow stRel where
  trans a b c hab hbc := by
    rcases hab with ⟨h1, h2⟩ | ⟨h1, h2⟩ <;> rcases hbc with ⟨h3, h4⟩ | ⟨h3, h4⟩
    · exact Or.inl ⟨h1.trans h3, h4.trans h2⟩
    · exact Or.inr ⟨h1.trans h3, h4⟩
    · exact Or.inr ⟨h1, h3.symm.trans h2⟩
    · exact absurd (h2.symm.trans h3) (by simp)

/-- The status categories: statuses of the sorted table, deduplicated
keeping first occurrences (`unique()` of ccs.py lines 391-396). -/
def statusOrder (es : List AggRow) : List String :=
  uniqueFirst ((List.insertionSort stRel es).map (·.status))

/-- Index of the first occurrence of a string (position of a category
in an ordered `pd.Categorical`). -/
def posOf (l : List String) (s : String) : Nat :=
  match l with
  | [] => 0
  | x :: xs => if x = s then 0 else posOf xs s + 1

/-- The final sort key of ccs.py lines 397-405: by run name in input
order, then by status in category order. -/
def finalRel (names sts : List String) (a b : AggRow) : Prop :=
  posOf names a.name < posOf names b.name ∨
    (posOf names a.name = posOf names b.name ∧ posOf sts a.status ≤ posOf sts b.status)

instance finalRelDec (names sts : List String) : DecidableRel (finalRel names sts) :=
  fun a b => inferInstanceAs (Decidable (_ ∨ _))

instance finalRelTotal (names sts : List String) : IsTotal AggRow (finalRel names sts) where
  total a b := by
    rcases Nat.lt_trichotomy (posOf names a.name) (posOf names b.name) with h | h | h
    · exact Or.inl (Or.inl h)
    · rcases Nat.le_total (posOf sts a.status) (posOf sts b.status) with h2 | h2
      · exact Or.inl (Or.inr ⟨h, h2⟩)
      · exact Or.inr (Or.inr ⟨h.symm, h2⟩)
    · exact Or.inr (Or.inl h)

instance finalRelTrans (names sts : List String) : IsTrans AggRow (finalRel names sts) where
  trans a b c hab hbc := by
    rcases hab with h1 | ⟨h1, h2⟩ <;> rcases hbc with h3 | ⟨h3, h4⟩
    · exact Or.inl (h1.trans h3)
    · exact Or.inl (h3 ▸ h1)
    · exact Or.inl (h1 ▸ h3)
    · exact Or.inr ⟨h1.trans h3, h2.trans h4⟩

/-- The column projection of the final `drop(columns=...)` (ccs.py
line 406). -/
def toRaw (e : AggRow) : RawRow := ⟨e.name, e.status, e.number, e.fraction⟩

/-- Mirror of `Summaries.zmw_stats` (ccs.py lines 321-410) on the
per-run tables: compute the merged table, order rows by run (input
order) and status (category order), and keep the `name`, `status`,
`number`, `fraction` columns. -/
def zmw_stats (runs : List (String × List CatRow)) (minfailfrac : ℚ) (groupsuccess : Bool) :
    List RawRow :=
  let es := aggTable runs minfailfrac groupsuccess
  let ns := runs.map (·.1)
  let sts := statusOrder es
  (List.insertionSort (finalRel ns sts) es).map toRaw


/-! ## Helper lemmas for the parsing claims -/

theorem passesLoop_none (tag : String) (rs : List FastqRec) : passesLoop tag none rs = none := by
  induction rs with
  | nil => rfl
  | cons r rs ih => simpa [passesLoop] using ih

theorem passesLoop_length (tag : String) (rs : List FastqRec) :
    ∀ acc l, passesLoop tag (some acc) rs = some l → l.length = acc.length + rs.length := by
  induction rs with
  | nil => intro acc l h; injection h with h; simp [← h]
  | cons r rs ih =>
    intro acc l h
    rw [passesLoop] at h
    cases hr : recPass tag r with
    | none => rw [hr, passesLoop_none] at h; exact absurd h (by simp)
    | some p =>
      rw [hr] at h
      have := ih (acc ++ [p]) l h
      simp only [List.length_append, List.length_cons, List.length_nil] at this ⊢
      omega

theorem passesLoop_of_bad (tag : String) (rs : List FastqRec) :
    ∀ acc, (∃ r ∈ rs, recPass tag r = none) → passesLoop tag (some acc) rs = none := by
  induction rs with
  | nil => intro acc h; exact absurd h (by simp)
  | cons r rs ih =>
    intro acc h
    rw [passesLoop]
    cases hr : recPass tag r with
    | none => exact passesLoop_none tag rs
    | some p =>
      rcases h with ⟨r', hr', hnone⟩
      rcases List.mem_cons.mp hr' with rfl | hmem
      · exact absurd hnone (by simp [hr])
      · exact ih (acc ++ [p]) ⟨r', hmem, hnone⟩

theorem passesLoop_of_good (tag : String) (rs : List FastqRec) :
    ∀ acc, (∀ r ∈ rs, (recPass tag r).isSome) → ∃ l, passesLoop tag (some acc) rs = some l := by
  induction rs with
  | nil => intro acc _; exact ⟨acc, rfl⟩
  | cons r rs ih =>
    intro acc h
    rw [passesLoop]
    cases hr : recPass tag r with
    | none => exact absurd (h r (by simp)) (by simp [hr])
    | some p => exact ih (acc ++ [p]) (fun r' hm => h r' (List.mem_cons_of_mem _ hm))

theorem mapOption_length {α β : Type} (f : α → Option β) (l : List α) (bs : List β)
    (h : mapOption f l = some bs) : bs.length = l.length := by
  induction l generalizing bs with
  | nil => injection h with h; simp [← h]
  | cons a as ih =>
    rw [mapOption] at h
    cases hf : f a with
    | none => rw [hf] at h; exact absurd h (by simp)
    | some b =>
      rw [hf] at h
      cases hm : mapOption f as with
      | none => rw [hm] at h; exact absurd h (by simp)
      | some bs' =>
        rw [hm] at h
        injection h with h
        simp [← h, ih bs' hm]

theorem mapOption_get {α β : Type} (f : α → Option β) (l : List α) (bs : List β)
    (h : mapOption f l = some bs) :
    ∀ i (hi : i < l.length) (hj : i < bs.length), f (l.get ⟨i, hi⟩) = some (bs.get ⟨i, hj⟩) := by
  induction l generalizing bs with
  | nil => intro i hi; exact absurd hi (by simp)
  | cons a as ih =>
    intro i hi hj
    rw [mapOption] at h
    cases hf : f a with
    | none => rw [hf] at h; exact absurd h (by simp)
    | some b =>
      rw [hf] at h
      cases hm : mapOption f as with
      | none => rw [hm] at h; exact absurd h (by simp)
      | some bs' =>
        rw [hm] at h
        injection h with h
        subst h
        cases i with
        | zero => simpa using hf
        | succ n => exact ih bs' hm n (by simpa using hi) (by simpa using hj)

theorem sum_map_cast_div (l : List Int) (T : ℚ) :
    (l.map (fun k : Int => ((k : ℚ) / T))).sum = ((l.sum : Int) : ℚ) / T := by
  induction l with
  | nil => simp
  | cons x xs ih =>
    rw [List.map_cons, List.sum_cons, ih, div_add_div_same, List.sum_cons]
    congr 1
    push_cast
    ring

/-! ## Claim C1

The consistency check of `Summary.__init__` is exercised on three
concrete runs: matching counts, mismatching counts with pass
annotations present, and mismatching counts with pass annotations
absent.  In the last case the constructor evaluates
`len(self.passes)` with `self.passes = None` while building the error
message, so it raises `TypeError` instead of the claimed consistency
error naming both file paths and both counts. -/

def c1RecsNoTag : List FastqRec := [⟨5, none⟩]

def c1RecsTagged : List FastqRec := [⟨5, some "np:i:3"⟩]

def c1Report2 : List String := ["ZMW Yield", "Success -- CCS generated,2,50.00%", "", ""]

def c1Report1 : List String := ["ZMW Yield", "Success -- CCS generated,1,50.00%", "", ""]

/-- C1: the check compares the report's `^Success` total with the read
count and construction succeeds exactly on agreement, but on the
mismatching run whose single read has no pass annotation the
constructor raises `TypeError: object of type 'NoneType' has no
len()` from `len(self.passes)` instead of the claimed consistency
error naming both file paths and both counts; with pass annotations
present the claimed message is produced. -/
theorem claim_C1_consistency_check_eval :
    Summary_init "run1" "reads.fastq" c1RecsNoTag (some ("report.txt", c1Report1))
      = .ok ⟨"run1", "reads.fastq", some "report.txt",
          some [⟨"Success -- CCS generated", 1, mkRat 1 2⟩], none, [5]⟩ ∧
    Summary_init "run1" "reads.fastq" c1RecsTagged (some ("report.txt", c1Report2))
      = .error (.valueError
          "`fastqfile`, `reportfile` differ on number CCSs.\nreads.fastq has 1\nreport.txt has 2") ∧
    Summary_init "run1" "reads.fastq" c1RecsNoTag (some ("report.txt", c1Report2))
      = .error (.typeError "object of type 'NoneType' has no len()") :=
  ⟨by decide, by decide, by decide⟩

/-! ## Claim C7 -/

/-- C7: pass extraction is all-or-nothing.  If any record lacks a
well-formed pass annotation (no comment, empty comment, or no matching
`np:i:<digits>` group), the run's `passes` is `None`; if every record
has one, `passes` is a list with exactly one entry per record; and any
returned list has exactly one entry per record (never partially
populated). -/
theorem claim_C7_passes_all_or_nothing (recs : List FastqRec) :
    ((∃ r ∈ recs, recPass "np" r = none) → (get_ccs_stats recs "np").passes = none) ∧
    ((∀ r ∈ recs, (recPass "np" r).isSome) →
      ∃ l, (get_ccs_stats recs "np").passes = some l ∧ l.length = recs.length) ∧
    (∀ l, (get_ccs_stats recs "np").passes = some l → l.length = recs.length) := by
  have hpass : (get_ccs_stats recs "np").passes = passesLoop "np" (some []) recs := by
    simp [get_ccs_stats]
  refine ⟨?_, ?_, ?_⟩
  · intro h
    rw [hpass]
    exact passesLoop_of_bad "np" recs [] h
  · intro h
    rcases passesLoop_of_good "np" recs [] h with ⟨l, hl⟩
    exact ⟨l, hpass ▸ hl, by simpa using passesLoop_length "np" recs [] l hl⟩
  · intro l hl
    rw [hpass] at hl
    simpa using passesLoop_length "np" recs [] l hl

def c7RecsBad : List FastqRec := [⟨61, some "np:i:18"⟩, ⟨62, none⟩]

def c7RecsGood : List FastqRec := [⟨61, some "np:i:18"⟩, ⟨62, some "np:i:51"⟩]

theorem claim_C7_witness :
    (get_ccs_stats c7RecsBad "np").passes = none ∧
    (∃ l, (get_ccs_stats c7RecsGood "np").passes = some l ∧ l.length = c7RecsGood.length) :=
  ⟨(claim_C7_passes_all_or_nothing c7RecsBad).1 (by decide),
   (claim_C7_passes_all_or_nothing c7RecsGood).2.1 (by decide)⟩

/-! ## Claim C4 -/

/-- C4: for every report text matching layout A whose produced counts
have positive sum, every returned row's fraction is its number divided
by the sum of all produced numbers (the generating-CCS row included) —
independent of the printed percentages, which the parser never reads
for fractions — and consequently the fractions sum to 1. -/
theorem claim_C4_v4_fractions (lines : List String) (rows : List CatRow)
    (h : report_to_stats_v4 lines = some rows)
    (hpos : 0 < (rows.map (·.number)).sum) :
    (∀ r ∈ rows, r.fraction = (r.number : ℚ) / (((rows.map (·.number)).sum : Int) : ℚ)) ∧
    (rows.map (·.fraction)).sum = 1 := by
  rw [report_to_stats_v4] at h
  cases hd : v4Decompose lines with
  | none => rw [hd] at h; exact absurd h (by simp)
  | some ng =>
    rw [hd] at h
    injection h with h
    subst h
    have hnum : (v4Rows ng).map (·.number) = (v4Pairs ng).map (·.2) := by
      rw [v4Rows, List.map_map]; rfl
    constructor
    · intro r hr
      rcases List.mem_map.mp hr with ⟨p, _, rfl⟩
      rw [hnum]
      exact qdiv_eq _ _
    · rw [hnum] at hpos
      have hfrac : (v4Rows ng).map (·.fraction)
          = ((v4Pairs ng).map (·.2)).map
              (fun k : Int => (k : ℚ) / ((((v4Pairs ng).map (·.2)).sum : Int) : ℚ)) := by
        rw [v4Rows, List.map_map, List.map_map]
        refine List.map_congr_left ?_
        intro p _
        exact qdiv_eq _ _
      rw [hfrac, sum_map_cast_div]
      have hne : (((((v4Pairs ng).map (·.2)).sum : Int)) : ℚ) ≠ 0 := by
        have h0 : (0 : ℚ) < ((((v4Pairs ng).map (·.2)).sum : Int) : ℚ) := by exact_mod_cast hpos
        exact ne_of_gt h0
      exact div_self hne

def c4Lines : List String :=
  ["ZMWs input (A) : 10",
   "ZMWs generating CCS (B) : 7 (70.00%)",
   "ZMWs filtered (C) : 3 (30.00%)",
   "",
   "Exclusive ZMW counts for (C):",
   "Low quality : 3 (30.00%)"]

def c4Rows : List CatRow :=
  [⟨"ZMWs generating CCS", 7, mkRat 7 10⟩, ⟨"Low quality", 3, mkRat 3 10⟩]

theorem claim_C4_witness :
    (∀ r ∈ c4Rows, r.fraction = (r.number : ℚ) / (((c4Rows.map (·.number)).sum : Int) : ℚ)) ∧
    (c4Rows.map (·.fraction)).sum = 1 :=
  claim_C4_v4_fractions c4Lines c4Rows (by decide) (by decide)

/-! ## Claim C5 -/

/-- Spec-side reading of the percentage printed on a layout-B data
line: the third comma-separated field, which must be a decimal number
followed by a percent sign. -/
def printedPercent (line : String) : Option ℚ :=
  match splitOnChar ',' line.data with
  | [_, _, p] => if p.getLast? = some '%' then floatOfChars p.dropLast else none
  | _ => none

theorem v3ParseRow_spec (line : String) (row : CatRow) (h : v3ParseRow line = some row) :
    ∃ f1 f2 f3 num pv, splitOnChar ',' line.data = [f1, f2, f3] ∧
      intOfChars f2 = some num ∧ floatOfChars f3.dropLast = some pv ∧
      row = ⟨String.mk f1, num, qdiv pv (100 : ℚ)⟩ := by
  rw [v3ParseRow] at h
  split at h
  case h_2 => exact absurd h (by simp)
  case h_1 f1 f2 f3 heq =>
    split at h
    case h_2 => exact absurd h (by simp)
    case h_1 num pv hnum hpv =>
      injection h with h
      exact ⟨f1, f2, f3, num, pv, heq, hnum, hpv, h.symm⟩

theorem printedPercent_spec (line : String) (p : ℚ) (h : printedPercent line = some p) :
    ∃ f1 f2 f3, splitOnChar ',' line.data = [f1, f2, f3] ∧
      floatOfChars f3.dropLast = some p := by
  rw [printedPercent] at h
  split at h
  case h_2 => exact absurd h (by simp)
  case h_1 f1 f2 f3 heq =>
    split at h
    · exact ⟨f1, f2, f3, heq, h⟩
    · exact absurd h (by simp)

/-- C5: for a report matching layout B, the rows come one-for-one from
the ZMW-yield block, each row's fraction is the printed percent value
divided by 100, and the subread-yield block contributes nothing: any
report whose layout-B match has the same ZMW block parses to the same
rows. -/
theorem claim_C5_v3_fractions (lines : List String) (zmw : List String)
    (sub : Option (List String)) (rows : List CatRow)
    (hdec : v3Decompose lines = some (zmw, sub))
    (hok : report_to_stats_v3 lines = .ok (some rows)) :
    rows.length = zmw.length ∧
    (∀ i (hi : i < zmw.length) (hj : i < rows.length) (p : ℚ),
      printedPercent (zmw.get ⟨i, hi⟩) = some p →
      (rows.get ⟨i, hj⟩).fraction = p / 100) ∧
    (∀ lines2 sub2, v3Decompose lines2 = some (zmw, sub2) →
      report_to_stats_v3 lines2 = .ok (some rows)) := by
  rw [report_to_stats_v3, hdec] at hok
  have hok2 : v3Convert zmw = .ok (some rows) := hok
  rw [v3Convert] at hok2
  cases hm : mapOption v3ParseRow zmw with
  | none => rw [hm] at hok2; exact absurd hok2 (by simp)
  | some rows' =>
    rw [hm] at hok2
    injection hok2 with hok2
    injection hok2 with hok2
    subst hok2
    refine ⟨mapOption_length _ _ _ hm, ?_, ?_⟩
    · intro i hi hj p hp
      have hrow := mapOption_get _ _ _ hm i hi hj
      rcases v3ParseRow_spec _ _ hrow with ⟨f1, f2, f3, num, pv, hsp, _, hpv, hrw⟩
      rcases printedPercent_spec _ _ hp with ⟨g1, g2, g3, hsp2, hpv2⟩
      rw [hsp] at hsp2
      injection hsp2 with e1 hsp2
      injection hsp2 with e2 hsp2
      injection hsp2 with e3 _
      subst e3
      rw [hpv] at hpv2
      injection hpv2 with hpv2
      subst hpv2
      rw [hrw]
      show qdiv pv (100 : ℚ) = pv / 100
      rw [qdiv_eq]
    · intro lines2 sub2 hdec2
      rw [report_to_stats_v3, hdec2]
      show v3Convert zmw = _
      rw [v3Convert, hm]

def c5Lines : List String :=
  ["ZMW Yield", "Success -- CCS generated,242220,45.57%", "", "",
   "Subread Yield", "Success - Used for CCS,10972010,89.06%"]

def c5Zmw : List String := ["Success -- CCS generated,242220,45.57%"]

def c5Rows : List CatRow := [⟨"Success -- CCS generated", 242220, mkRat 4557 10000⟩]

theorem claim_C5_witness :
    c5Rows.length = c5Zmw.length ∧
    (c5Rows.get ⟨0, by decide⟩).fraction = (mkRat 4557 100) / 100 := by
  have h := claim_C5_v3_fractions c5Lines c5Zmw
    (some ["Success - Used for CCS,10972010,89.06%"]) c5Rows (by decide) (by decide)
  exact ⟨h.1, h.2.1 0 (by decide) (by decide) (mkRat 4557 100) (by decide)⟩

/-! ## Claim C6 -/

/-- C6: `report_to_stats` tries layout A before layout B, adopts the
first match, and when neither layout matches raises an error naming
the offending report file instead of returning rows. -/
theorem claim_C6_layout_dispatch (rf : String) (lines : List String) :
    (∀ df, report_to_stats_v4 lines = some df → report_to_stats rf lines = .ok df) ∧
    (report_to_stats_v4 lines = none → ∀ df, report_to_stats_v3 lines = .ok (some df) →
      report_to_stats rf lines = .ok df) ∧
    (report_to_stats_v4 lines = none → report_to_stats_v3 lines = .ok none →
      report_to_stats rf lines = .error (.ioError ("Cannot match report in " ++ rf))) := by
  refine ⟨?_, ?_, ?_⟩
  · intro df h
    rw [report_to_stats, h]
  · intro h4 df h3
    rw [report_to_stats, h4, h3]
  · intro h4 h3
    rw [report_to_stats, h4, h3]

theorem claim_C6_witness :
    report_to_stats "r.txt" ["garbage"] = .error (.ioError ("Cannot match report in " ++ "r.txt")) :=
  (claim_C6_layout_dispatch "r.txt" ["garbage"]).2.2 (by decide) (by decide)

/-! ## Claim C3

The claim asserts that with fractions 0.02 / 0.005 / 0.003 for a
failure category across three runs and threshold 0.01, runs 2 and 3
have the category absorbed into `Failed -- Other reason`.  In the code
the grouping test uses `max_fraction`, the maximum of the category's
fraction over *all* runs (`groupby(status).transform(max)`), which is
0.02 and not below the threshold, so the category is absorbed in no
run (this matches the docstring of `minfailfrac`: group categories
with at most this fraction *for all runs*). -/

def c3Runs : List (String × List CatRow) :=
  [("run1", [⟨"Success -- CCS generated", 98, mkRat 98 100⟩, ⟨"Failed -- Foo", 2, mkRat 2 100⟩]),
   ("run2", [⟨"Success -- CCS generated", 995, mkRat 995 1000⟩, ⟨"Failed -- Foo", 5, mkRat 5 1000⟩]),
   ("run3", [⟨"Success -- CCS generated", 997, mkRat 997 1000⟩, ⟨"Failed -- Foo", 3, mkRat 3 1000⟩])]

/-- C3 counterexample: at the claim's own input it is false that run 2
has `Failed -- Foo` absorbed: the harmonized table keeps run 2's
`Failed -- Foo` row and contains no `Failed -- Other reason` row for
run 2. -/
theorem claim_C3_counterexample :
    ¬ ((zmw_stats c3Runs (mkRat 1 100) true).all
          (fun o => !(o.name == "run2" && o.status == "Failed -- Foo")) = true ∧
        (zmw_stats c3Runs (mkRat 1 100) true).any
          (fun o => o.name == "run2" && o.status == "Failed -- Other reason") = true) := by
  decide

/-- C3 amended: because `max_fraction` is the maximum of the
category's fraction over all runs (0.02 here), which is not below the
threshold 0.01, `Failed -- Foo` stays as its own row in all three runs
and no `Failed -- Other reason` row is produced for any run. -/
theorem claim_C3_amended :
    zmw_stats c3Runs (mkRat 1 100) true =
      [⟨"run1", "Success -- CCS generated", 98, mkRat 98 100⟩,
       ⟨"run1", "Failed -- Foo", 2, mkRat 2 100⟩,
       ⟨"run2", "Success -- CCS generated", 995, mkRat 995 1000⟩,
       ⟨"run2", "Failed -- Foo", 5, mkRat 5 1000⟩,
       ⟨"run3", "Success -- CCS generated", 997, mkRat 997 1000⟩,
       ⟨"run3", "Failed -- Foo", 3, mkRat 3 1000⟩] := by
  decide

/-! ## Well-formedness of aggregation inputs

The hypotheses under which the pandas pipeline is modelled exactly:
unique run names, unique statuses within a run, and statuses that do
not collide with the two synthetic labels (no status equal to
`Failed -- Other reason`, no success status containing the failure
marker). -/

def goodStatus (s : String) : Prop :=
  s ≠ "Failed -- Other reason" ∧
    ¬(strLeads "Success" s = true ∧ strContainsB s "Failed" = true)

instance goodStatusDec (s : String) : Decidable (goodStatus s) :=
  inferInstanceAs (Decidable (_ ∧ _))

def WFruns (runs : List (String × List CatRow)) : Prop :=
  (runs.map (·.1)).Nodup ∧
    (∀ p ∈ runs, (p.2.map (·.status)).Nodup) ∧
    (∀ p ∈ runs, ∀ c ∈ p.2, goodStatus c.status)

instance WFrunsDec (runs : List (String × List CatRow)) : Decidable (WFruns runs) :=
  inferInstanceAs (Decidable (_ ∧ _))

/-! ## Generic lemmas: `listMax`, `uniqueFirstFrom`, `posOf` -/

theorem foldl_max_init (l : List ℚ) (a : ℚ) : a ≤ l.foldl max a := by
  induction l generalizing a with
  | nil => exact le_refl a
  | cons b t ih => exact le_trans (le_max_left a b) (ih (max a b))

theorem foldl_max_le_of_mem (l : List ℚ) (a : ℚ) : ∀ x ∈ l, x ≤ l.foldl max a := by
  induction l generalizing a with
  | nil => intro x hx; exact absurd hx (by simp)
  | cons b t ih =>
    intro x hx
    rcases List.mem_cons.mp hx with rfl | hx
    · exact le_trans (le_max_right a x) (foldl_max_init t (max a x))
    · exact ih (max a b) x hx

theorem foldl_max_mem (l : List ℚ) (a : ℚ) : l.foldl max a = a ∨ l.foldl max a ∈ l := by
  induction l generalizing a with
  | nil => exact Or.inl rfl
  | cons b t ih =>
    rcases ih (max a b) with h | h
    · rcases max_choice a b with hm | hm
      · exact Or.inl (by rw [List.foldl_cons, h, hm])
      · exact Or.inr (by rw [List.foldl_cons, h, hm]; exact List.mem_cons_self b t)
    · exact Or.inr (List.mem_cons_of_mem b h)

theorem le_listMax (l : List ℚ) : ∀ x ∈ l, x ≤ listMax l := by
  intro x hx
  cases l with
  | nil => exact absurd hx (by simp)
  | cons a t =>
    rcases List.mem_cons.mp hx with rfl | hx
    · exact foldl_max_init t x
    · exact foldl_max_le_of_mem t a x hx

theorem listMax_mem (l : List ℚ) (h : l ≠ []) : listMax l ∈ l := by
  cases l with
  | nil => exact absurd rfl h
  | cons a t =>
    rcases foldl_max_mem t a with hm | hm
    · rw [listMax, hm]; exact List.mem_cons_self a t
    · exact List.mem_cons_of_mem a hm

theorem mem_uniqueFirstFrom (l : List String) :
    ∀ seen x, x ∈ uniqueFirstFrom seen l ↔ (x ∈ l ∧ x ∉ seen) := by
  induction l with
  | nil => intro seen x; simp [uniqueFirstFrom]
  | cons a t ih =>
    intro seen x
    rw [uniqueFirstFrom]
    by_cases ha : a ∈ seen
    · rw [if_pos ha, ih seen x]
      constructor
      · rintro ⟨hx, hs⟩; exact ⟨List.mem_cons_of_mem a hx, hs⟩
      · rintro ⟨hx, hs⟩
        rcases List.mem_cons.mp hx with rfl | hx
        · exact absurd ha hs
        · exact ⟨hx, hs⟩
    · rw [if_neg ha]
      constructor
      · intro hx
        rcases List.mem_cons.mp hx with rfl | hx
        · exact ⟨List.mem_cons_self x t, ha⟩
        · rcases (ih (a :: seen) x).mp hx with ⟨h1, h2⟩
          exact ⟨List.mem_cons_of_mem a h1, fun hs => h2 (List.mem_cons_of_mem a hs)⟩
      · rintro ⟨hx, hs⟩
        rcases List.mem_cons.mp hx with rfl | hx
        · exact List.mem_cons_self x _
        · by_cases hxa : x = a
          · subst hxa; exact List.mem_cons_self x _
          · exact List.mem_cons_of_mem a ((ih (a :: seen) x).mpr
              ⟨hx, fun hm => (List.mem_cons.mp hm).elim hxa hs⟩)

theorem nodup_uniqueFirstFrom (l : List String) : ∀ seen, (uniqueFirstFrom seen l).Nodup := by
  induction l with
  | nil => intro seen; simp [uniqueFirstFrom]
  | cons a t ih =>
    intro seen
    rw [uniqueFirstFrom]
    by_cases ha : a ∈ seen
    · rw [if_pos ha]; exact ih seen
    · rw [if_neg ha]
      refine List.nodup_cons.mpr ⟨?_, ih (a :: seen)⟩
      intro hmem
      exact ((mem_uniqueFirstFrom t (a :: seen) a).mp hmem).2 (List.mem_cons_self a seen)

theorem mem_uniqueFirst (l : List String) (x : String) : x ∈ uniqueFirst l ↔ x ∈ l := by
  rw [uniqueFirst, mem_uniqueFirstFrom]
  simp

theorem nodup_uniqueFirst (l : List String) : (uniqueFirst l).Nodup :=
  nodup_uniqueFirstFrom l []

theorem mem_groupKeys (l : List String) (x : String) : x ∈ groupKeys l ↔ x ∈ l := by
  rw [groupKeys, mem_uniqueFirst]
  exact (List.perm_insertionSort strLe l).mem_iff

theorem nodup_groupKeys (l : List String) : (groupKeys l).Nodup :=
  nodup_uniqueFirst _

theorem posOf_lt_length (l : List String) (s : String) (h : s ∈ l) : posOf l s < l.length := by
  induction l with
  | nil => exact absurd h (by simp)
  | cons a t ih =>
    rw [posOf]
    by_cases ha : a = s
    · rw [if_pos ha]; simp
    · rw [if_neg ha]
      have : s ∈ t := (List.mem_cons.mp h).elim (fun he => absurd he.symm ha) id
      simpa using ih this

theorem getElem?_posOf (l : List String) (s : String) (h : s ∈ l) : l[posOf l s]? = some s := by
  induction l with
  | nil => exact absurd h (by simp)
  | cons a t ih =>
    by_cases ha : a = s
    · rw [posOf, if_pos ha]
      simpa using ha
    · rw [posOf, if_neg ha]
      have hmem : s ∈ t := (List.mem_cons.mp h).elim (fun he => absurd he.symm ha) id
      simpa using ih hmem

theorem posOf_inj (l : List String) (a b : String) (ha : a ∈ l) (hb : b ∈ l)
    (h : posOf l a = posOf l b) : a = b := by
  have h1 := getElem?_posOf l a ha
  have h2 := getElem?_posOf l b hb
  rw [h] at h1
  rw [h1] at h2
  injection h2

theorem uniqueFirstFrom_posOf_mono (l : List String) :
    ∀ seen x y, x ≠ y → x ∈ l → y ∈ l → x ∉ seen → y ∉ seen →
      posOf l x < posOf l y →
      posOf (uniqueFirstFrom seen l) x < posOf (uniqueFirstFrom seen l) y := by
  induction l with
  | nil => intro seen x y _ hx _ _ _ _; exact absurd hx (by simp)
  | cons a t ih =>
    intro seen x y hxy hx hy hxs hys hlt
    by_cases hya : a = y
    · have h0 : posOf (a :: t) y = 0 := by rw [posOf, if_pos hya]
      rw [h0] at hlt
      exact absurd hlt (by omega)
    · by_cases hxa : a = x
      · subst hxa
        rw [uniqueFirstFrom, if_neg hxs]
        have h1 : posOf (a :: uniqueFirstFrom (a :: seen) t) a = 0 := by
          rw [posOf, if_pos rfl]
        have h2 : posOf (a :: uniqueFirstFrom (a :: seen) t) y
            = posOf (uniqueFirstFrom (a :: seen) t) y + 1 := by
          rw [posOf, if_neg hya]
        rw [h1, h2]
        omega
      · have hx' : x ∈ t := (List.mem_cons.mp hx).elim (fun he => absurd he.symm hxa) id
        have hy' : y ∈ t := (List.mem_cons.mp hy).elim (fun he => absurd he.symm hya) id
        have hlt' : posOf t x < posOf t y := by
          rw [posOf, if_neg hxa, posOf, if_neg hya] at hlt
          omega
        rw [uniqueFirstFrom]
        by_cases has : a ∈ seen
        · rw [if_pos has]
          exact ih seen x y hxy hx' hy' hxs hys hlt'
        · rw [if_neg has]
          have hxs' : x ∉ a :: seen := fun hm =>
            (List.mem_cons.mp hm).elim (fun he => hxa he.symm) hxs
          have hys' : y ∉ a :: seen := fun hm =>
            (List.mem_cons.mp hm).elim (fun he => hya he.symm) hys
          have hrec := ih (a :: seen) x y hxy hx' hy' hxs' hys' hlt'
          have h1 : posOf (a :: uniqueFirstFrom (a :: seen) t) x
              = posOf (uniqueFirstFrom (a :: seen) t) x + 1 := by
            rw [posOf, if_neg hxa]
          have h2 : posOf (a :: uniqueFirstFrom (a :: seen) t) y
              = posOf (uniqueFirstFrom (a :: seen) t) y + 1 := by
            rw [posOf, if_neg hya]
          rw [h1, h2]
          omega

theorem uniqueFirst_posOf_mono (l : List String) (x y : String) (hxy : x ≠ y)
    (hx : x ∈ l) (hy : y ∈ l) (hlt : posOf l x < posOf l y) :
    posOf (uniqueFirst l) x < posOf (uniqueFirst l) y :=
  uniqueFirstFrom_posOf_mono l [] x y hxy hx hy (by simp) (by simp) hlt

/-! ## Structure lemmas for the aggregation model -/

/-- The row an input category row contributes to the long table. -/
def rawOf (n : String) (c : CatRow) : RawRow := ⟨n, c.status, c.number, c.fraction⟩

theorem mem_concatRuns (runs : List (String × List CatRow)) (r : RawRow) :
    r ∈ concatRuns runs ↔ ∃ p ∈ runs, ∃ c ∈ p.2, r = rawOf p.1 c := by
  induction runs with
  | nil => simp [concatRuns]
  | cons q rest ih =>
    rw [concatRuns, List.mem_append, ih]
    constructor
    · rintro (hq | ⟨p, hp, c, hc, rfl⟩)
      · rcases List.mem_map.mp hq with ⟨c, hc, rfl⟩
        exact ⟨q, List.mem_cons_self q rest, c, hc, rfl⟩
      · exact ⟨p, List.mem_cons_of_mem q hp, c, hc, rfl⟩
    · rintro ⟨p, hp, c, hc, rfl⟩
      rcases List.mem_cons.mp hp with rfl | hp
      · exact Or.inl (List.mem_map.mpr ⟨c, hc, rfl⟩)
      · exact Or.inr ⟨p, hp, c, hc, rfl⟩

/-- The computed-columns row of one long-table row. -/
def aggOf (rs : List RawRow) (r : RawRow) : AggRow :=
  ⟨r.name, r.status, r.number, r.fraction, maxFracRaw rs r.status,
    strContainsB r.status "Failed"⟩

theorem withCols_eq_map (rs : List RawRow) : withCols rs = rs.map (aggOf rs) := rfl

theorem mem_withCols (rs : List RawRow) (e : AggRow) :
    e ∈ withCols rs ↔ ∃ r ∈ rs, e = aggOf rs r := by
  rw [withCols_eq_map]
  constructor
  · intro h; rcases List.mem_map.mp h with ⟨r, hr, rfl⟩; exact ⟨r, hr, rfl⟩
  · rintro ⟨r, hr, rfl⟩; exact List.mem_map.mpr ⟨r, hr, rfl⟩

theorem mem_baseTable (runs : List (String × List CatRow)) (e : AggRow) :
    e ∈ baseTable runs ↔ ∃ p ∈ runs, ∃ c ∈ p.2, e = aggOf (concatRuns runs) (rawOf p.1 c) := by
  rw [baseTable, mem_withCols]
  constructor
  · rintro ⟨r, hr, rfl⟩
    rcases (mem_concatRuns runs r).mp hr with ⟨p, hp, c, hc, rfl⟩
    exact ⟨p, hp, c, hc, rfl⟩
  · rintro ⟨p, hp, c, hc, rfl⟩
    exact ⟨rawOf p.1 c, (mem_concatRuns runs _).mpr ⟨p, hp, c, hc, rfl⟩, rfl⟩

theorem baseTable_good (runs : List (String × List CatRow)) (hWF : WFruns runs) :
    ∀ e ∈ baseTable runs, goodStatus e.status := by
  intro e he
  rcases (mem_baseTable runs e).mp he with ⟨p, hp, c, hc, rfl⟩
  exact hWF.2.2 p hp c hc

theorem baseTable_failed (runs : List (String × List CatRow)) :
    ∀ e ∈ baseTable runs, e.failed = strContainsB e.status "Failed" := by
  intro e he
  rcases (mem_baseTable runs e).mp he with ⟨p, hp, c, hc, rfl⟩
  rfl

theorem baseTable_maxfrac (runs : List (String × List CatRow)) :
    ∀ e ∈ baseTable runs, e.max_fraction = maxFracRaw (concatRuns runs) e.status := by
  intro e he
  rcases (mem_baseTable runs e).mp he with ⟨p, hp, c, hc, rfl⟩
  rfl

/-- Rows of the base table sharing a status share the computed columns
(`max_fraction` is a `transform` over the status group, `failed` a
function of the status). -/
theorem baseTable_status_uniform (runs : List (String × List CatRow)) :
    ∀ a ∈ baseTable runs, ∀ b ∈ baseTable runs, a.status = b.status →
      a.failed = b.failed ∧ a.max_fraction = b.max_fraction := by
  intro a ha b hb hs
  rw [baseTable_failed runs a ha, baseTable_failed runs b hb,
    baseTable_maxfrac runs a ha, baseTable_maxfrac runs b hb, hs]
  exact ⟨rfl, rfl⟩

/-- `isOther` is a function of the status on the base table. -/
theorem baseTable_isOther_congr (runs : List (String × List CatRow)) (m : ℚ) :
    ∀ a ∈ baseTable runs, ∀ b ∈ baseTable runs, a.status = b.status →
      isOther m a = isOther m b := by
  intro a ha b hb hs
  rcases baseTable_status_uniform runs a ha b hb hs with ⟨h1, h2⟩
  rw [isOther, isOther, h1, h2]

/-! ## Structure of `otherDf` and `successDf` -/

theorem mem_otherNames (m : ℚ) (es : List AggRow) (n : String) :
    n ∈ otherNames m es ↔ ∃ e ∈ otherCands m es, e.name = n := by
  rw [otherNames, mem_groupKeys]
  constructor
  · intro h; rcases List.mem_map.mp h with ⟨e, he, rfl⟩; exact ⟨e, he, rfl⟩
  · rintro ⟨e, he, rfl⟩; exact List.mem_map.mpr ⟨e, he, rfl⟩

/-- One finished row of `other_df`. -/
def otherRow (m : ℚ) (es : List AggRow) (n : String) : AggRow :=
  { otherBaseRow m es n with
    max_fraction := maxFracAggF (otherBase m es) "Failed -- Other reason" }

theorem otherDf_eq_map (m : ℚ) (es : List AggRow) :
    otherDf m es = (otherNames m es).map (otherRow m es) := by
  rw [otherDf, otherBase, List.map_map]
  rfl

theorem mem_otherDf (m : ℚ) (es : List AggRow) (e : AggRow) :
    e ∈ otherDf m es ↔ ∃ n ∈ otherNames m es, e = otherRow m es n := by
  rw [otherDf_eq_map]
  constructor
  · intro h; rcases List.mem_map.mp h with ⟨n, hn, rfl⟩; exact ⟨n, hn, rfl⟩
  · rintro ⟨n, hn, rfl⟩; exact List.mem_map.mpr ⟨n, hn, rfl⟩

theorem otherRow_status (m : ℚ) (es : List AggRow) (n : String) :
    (otherRow m es n).status = "Failed -- Other reason" := rfl

theorem otherRow_name (m : ℚ) (es : List AggRow) (n : String) : (otherRow m es n).name = n := rfl

theorem otherCands_failed (m : ℚ) (es : List AggRow) :
    ∀ e ∈ otherCands m es, e.failed = true := by
  intro e he
  have h := (List.mem_filter.mp he).2
  rw [isOther] at h
  simp only [Bool.and_eq_true] at h
  exact h.1

theorem otherRow_failed (m : ℚ) (es : List AggRow) (n : String) (h : n ∈ otherNames m es) :
    (otherRow m es n).failed = true := by
  rcases (mem_otherNames m es n).mp h with ⟨e, he, hn⟩
  show ((otherCands m es).filter (fun e => e.name == n)).any (·.failed) = true
  refine List.any_eq_true.mpr ⟨e, List.mem_filter.mpr ⟨he, ?_⟩, ?_⟩
  · simp [hn]
  · rw [otherCands_failed m es e he]

theorem mem_succNames (es : List AggRow) (n : String) :
    n ∈ succNames es ↔ ∃ e ∈ succRows es, e.name = n := by
  rw [succNames, mem_groupKeys]
  constructor
  · intro h; rcases List.mem_map.mp h with ⟨e, he, rfl⟩; exact ⟨e, he, rfl⟩
  · rintro ⟨e, he, rfl⟩; exact List.mem_map.mpr ⟨e, he, rfl⟩

theorem mem_successDf (es : List AggRow) (e : AggRow) :
    e ∈ successDf es ↔ ∃ n ∈ succNames es, e = succRow es n := by
  rw [successDf]
  constructor
  · intro h; rcases List.mem_map.mp h with ⟨n, hn, rfl⟩; exact ⟨n, hn, rfl⟩
  · rintro ⟨n, hn, rfl⟩; exact List.mem_map.mpr ⟨n, hn, rfl⟩

theorem succRow_status (es : List AggRow) (n : String) :
    (succRow es n).status = "Success -- CCS generated" := rfl

theorem succRow_name (es : List AggRow) (n : String) : (succRow es n).name = n := rfl

/-! ## Decomposition of the merged table -/

theorem aggTable_true (runs : List (String × List CatRow)) (m : ℚ) :
    aggTable runs m true =
      (baseTable runs).filter (fun e => !isOther m e && !strLeads "Success" e.status)
        ++ (otherDf m (baseTable runs)
        ++ successDf (afterOther m (baseTable runs))) := by
  rw [aggTable, afterSuccess, if_pos rfl, afterOther, List.filter_append]
  rw [List.filter_filter]
  have hother : (otherDf m (baseTable runs)).filter (fun e => !strLeads "Success" e.status)
      = otherDf m (baseTable runs) := by
    refine List.filter_eq_self.mpr ?_
    intro e he
    rcases (mem_otherDf _ _ e).mp he with ⟨n, _, rfl⟩
    rw [otherRow_status]
    decide
  rw [hother, List.append_assoc]
  congr 1
  refine List.filter_congr ?_
  intro e _
  rw [Bool.and_comm]

theorem aggTable_false (runs : List (String × List CatRow)) (m : ℚ) :
    aggTable runs m false =
      (baseTable runs).filter (fun e => !isOther m e) ++ otherDf m (baseTable runs) := by
  rw [aggTable, afterSuccess, if_neg (by simp), afterOther]

/-- Case analysis for membership in the merged table. -/
theorem mem_aggTable_cases (runs : List (String × List CatRow)) (m : ℚ) (g : Bool) (e : AggRow)
    (h : e ∈ aggTable runs m g) :
    (e ∈ baseTable runs ∧ isOther m e = false ∧
      (g = true → strLeads "Success" e.status = false)) ∨
    (∃ n ∈ otherNames m (baseTable runs), e = otherRow m (baseTable runs) n) ∨
    (g = true ∧ ∃ n ∈ succNames (afterOther m (baseTable runs)),
      e = succRow (afterOther m (baseTable runs)) n) := by
  cases g with
  | false =>
    rw [aggTable_false] at h
    rcases List.mem_append.mp h with hk | ho
    · have hm := List.mem_filter.mp hk
      exact Or.inl ⟨hm.1, by simpa using hm.2, by simp⟩
    · exact Or.inr (Or.inl ((mem_otherDf _ _ e).mp ho))
  | true =>
    rw [aggTable_true] at h
    rcases List.mem_append.mp h with hk | h2
    · have hm := List.mem_filter.mp hk
      have hp : (!isOther m e) = true ∧ (!strLeads "Success" e.status) = true := by
        simpa [Bool.and_eq_true] using hm.2
      refine Or.inl ⟨hm.1, by simpa using hp.1, fun _ => by simpa using hp.2⟩
    · rcases List.mem_append.mp h2 with ho | hs
      · exact Or.inr (Or.inl ((mem_otherDf _ _ e).mp ho))
      · exact Or.inr (Or.inr ⟨rfl, (mem_successDf _ e).mp hs⟩)

/-- The success rows of the post-`other` table are exactly the success
rows of the base table (success rows are never grouped as rare
failures under well-formedness). -/
theorem succRows_afterOther (runs : List (String × List CatRow)) (m : ℚ) (hWF : WFruns runs) :
    succRows (afterOther m (baseTable runs))
      = (baseTable runs).filter (fun e => strLeads "Success" e.status) := by
  rw [succRows, afterOther, List.filter_append]
  have hother : (otherDf m (baseTable runs)).filter (fun e => strLeads "Success" e.status)
      = [] := by
    refine List.filter_eq_nil_iff.mpr ?_
    intro e he
    rcases (mem_otherDf _ _ e).mp he with ⟨n, _, rfl⟩
    rw [otherRow_status]
    decide
  rw [hother, List.append_nil, List.filter_filter]
  refine List.filter_congr ?_
  intro e he
  by_cases hs : strLeads "Success" e.status = true
  · have hgood := baseTable_good runs hWF e he
    have hcont : strContainsB e.status "Failed" = false := by
      cases hcf : strContainsB e.status "Failed" with
      | false => rfl
      | true => exact absurd ⟨hs, hcf⟩ hgood.2
    have hfail : e.failed = false := by rw [baseTable_failed runs e he, hcont]
    have hoth : isOther m e = false := by rw [isOther, hfail]; rfl
    rw [hoth, hs]
    rfl
  · have hs' : strLeads "Success" e.status = false := by
      cases h : strLeads "Success" e.status with
      | false => rfl
      | true => exact absurd h hs
    rw [hs']
    simp

theorem succRows_failed_false (runs : List (String × List CatRow)) (m : ℚ) (hWF : WFruns runs) :
    ∀ e ∈ succRows (afterOther m (baseTable runs)), e.failed = false := by
  intro e he
  rw [succRows_afterOther runs m hWF] at he
  have hm := List.mem_filter.mp he
  have hgood := baseTable_good runs hWF e hm.1
  have hcont : strContainsB e.status "Failed" = false := by
    cases hcf : strContainsB e.status "Failed" with
    | false => rfl
    | true => exact absurd ⟨hm.2, hcf⟩ hgood.2
  rw [baseTable_failed runs e hm.1, hcont]

theorem succRow_failed (runs : List (String × List CatRow)) (m : ℚ) (hWF : WFruns runs)
    (n : String) :
    (succRow (afterOther m (baseTable runs)) n).failed = false := by
  show (((succRows _).filter (fun e => e.name == n)).any (·.failed)) = false
  cases hany : ((succRows (afterOther m (baseTable runs))).filter
      (fun e => e.name == n)).any (·.failed) with
  | false => rfl
  | true =>
    rcases List.any_eq_true.mp hany with ⟨e, he, hf⟩
    have := succRows_failed_false runs m hWF e (List.mem_filter.mp he).1
    rw [this] at hf
    exact absurd hf (by simp)

/-! ## From the merged table to the final output -/

theorem zmw_stats_perm (runs : List (String × List CatRow)) (m : ℚ) (g : Bool) :
    (zmw_stats runs m g).Perm ((aggTable runs m g).map toRaw) :=
  (List.perm_insertionSort _ _).map toRaw

theorem mem_zmw_stats (runs : List (String × List CatRow)) (m : ℚ) (g : Bool) (o : RawRow) :
    o ∈ zmw_stats runs m g ↔ ∃ e ∈ aggTable runs m g, o = toRaw e := by
  rw [(zmw_stats_perm runs m g).mem_iff]
  constructor
  · intro h; rcases List.mem_map.mp h with ⟨e, he, rfl⟩; exact ⟨e, he, rfl⟩
  · rintro ⟨e, he, rfl⟩; exact List.mem_map.mpr ⟨e, he, rfl⟩

theorem countP_zmw_stats (runs : List (String × List CatRow)) (m : ℚ) (g : Bool)
    (p : RawRow → Bool) :
    (zmw_stats runs m g).countP p = (aggTable runs m g).countP (fun e => p (toRaw e)) := by
  rw [(zmw_stats_perm runs m g).countP_eq, List.countP_map]
  rfl

theorem otherDf_subset_aggTable (runs : List (String × List CatRow)) (m : ℚ) (g : Bool) :
    ∀ e ∈ otherDf m (baseTable runs), e ∈ aggTable runs m g := by
  intro e he
  cases g with
  | false => rw [aggTable_false]; exact List.mem_append.mpr (Or.inr he)
  | true =>
    rw [aggTable_true]
    exact List.mem_append.mpr (Or.inr (List.mem_append.mpr (Or.inl he)))

/-! ## Claim C2 -/

/-- C2: in the cross-run harmonization, (a) the `max_fraction` of every
long-table row is the greatest fraction its status reaches in any
single run; (b) a row counts as a rare-failure candidate exactly when
its status contains the failure marker and that cross-run maximum is
strictly below the threshold; (c) no candidate status survives into
the output; (d) each run owning at least one candidate row receives
exactly one `Failed -- Other reason` row, whose `number` and
`fraction` are that run's sums over its candidate rows. -/
theorem claim_C2_rare_failure_grouping (runs : List (String × List CatRow)) (m : ℚ) (g : Bool)
    (hWF : WFruns runs) :
    (∀ e ∈ baseTable runs,
      (∀ p ∈ runs, ∀ c ∈ p.2, c.status = e.status → c.fraction ≤ e.max_fraction) ∧
      (∃ p ∈ runs, ∃ c ∈ p.2, c.status = e.status ∧ c.fraction = e.max_fraction)) ∧
    (∀ e ∈ baseTable runs,
      (isOther m e = true ↔
        (strContainsB e.status "Failed" = true ∧ e.max_fraction < m))) ∧
    (∀ s, (∃ e ∈ baseTable runs, e.status = s ∧ isOther m e = true) →
      ∀ o ∈ zmw_stats runs m g, o.status ≠ s) ∧
    (∀ p ∈ runs, (∃ e ∈ baseTable runs, e.name = p.1 ∧ isOther m e = true) →
      (zmw_stats runs m g).countP
          (fun o => o.name == p.1 && o.status == "Failed -- Other reason") = 1 ∧
      (∃ o ∈ zmw_stats runs m g, o.name = p.1 ∧ o.status = "Failed -- Other reason" ∧
        o.number = (((baseTable runs).filter
            (fun e => isOther m e && e.name == p.1)).map (·.number)).sum ∧
        o.fraction = (((baseTable runs).filter
            (fun e => isOther m e && e.name == p.1)).map (·.fraction)).sum)) := by
  have hfilter : ∀ n : String, (otherCands m (baseTable runs)).filter (fun e => e.name == n)
      = (baseTable runs).filter (fun e => isOther m e && e.name == n) := by
    intro n
    rw [otherCands, List.filter_filter]
    refine List.filter_congr ?_
    intro e _
    rw [Bool.and_comm]
  refine ⟨?_, ?_, ?_, ?_⟩
  · -- (a) max_fraction is the cross-run maximum of the status
    intro e he
    have hmax := baseTable_maxfrac runs e he
    constructor
    · intro p hp c hc hs
      rw [hmax, maxFracRaw]
      have hmem : rawOf p.1 c ∈ (concatRuns runs).filter (fun r => r.status == e.status) := by
        refine List.mem_filter.mpr ⟨(mem_concatRuns runs _).mpr ⟨p, hp, c, hc, rfl⟩, ?_⟩
        simp [rawOf, hs]
      exact le_listMax _ _ (List.mem_map.mpr ⟨rawOf p.1 c, hmem, rfl⟩)
    · rcases (mem_baseTable runs e).mp he with ⟨p, hp, c, hc, rfl⟩
      have hself : rawOf p.1 c ∈ (concatRuns runs).filter
          (fun r => r.status == (aggOf (concatRuns runs) (rawOf p.1 c)).status) := by
        refine List.mem_filter.mpr ⟨(mem_concatRuns runs _).mpr ⟨p, hp, c, hc, rfl⟩, by simp [rawOf, aggOf]⟩
      have hne : ((concatRuns runs).filter
          (fun r => r.status == (aggOf (concatRuns runs) (rawOf p.1 c)).status)).map
            (·.fraction) ≠ [] := by
        intro hnil
        rw [List.map_eq_nil] at hnil
        rw [hnil] at hself
        exact absurd hself (by simp)
      have hmm := listMax_mem _ hne
      rcases List.mem_map.mp hmm with ⟨r, hr, hfr⟩
      have hrc := List.mem_filter.mp hr
      rcases (mem_concatRuns runs r).mp hrc.1 with ⟨p', hp', c', hc', rfl⟩
      refine ⟨p', hp', c', hc', ?_, ?_⟩
      · have := hrc.2
        simpa [rawOf, aggOf] using this
      · rw [hmax, maxFracRaw]
        exact hfr
  · -- (b) the candidate test
    intro e he
    rw [isOther, baseTable_failed runs e he, Bool.and_eq_true, decide_eq_true_eq]
  · -- (c) no candidate status survives
    intro s hs o ho hos
    rcases hs with ⟨e', he', hs', hoth'⟩
    rcases (mem_zmw_stats runs m g o).mp ho with ⟨e, he, rfl⟩
    have hos' : e.status = s := hos
    rcases mem_aggTable_cases runs m g e he with ⟨hb, hoth, _⟩ | ⟨n, _, rfl⟩ | ⟨_, n, hn, rfl⟩
    · have : isOther m e = isOther m e' :=
        baseTable_isOther_congr runs m e hb e' he' (by rw [hos', hs'])
      rw [hoth', hoth] at this
      exact absurd this (by simp)
    · have hgood := baseTable_good runs hWF e' he'
      rw [hs'] at hgood
      refine hgood.1 ?_
      rw [← hos']
      rfl
    · have hfail : strContainsB s "Failed" = true := by
        rw [isOther] at hoth'
        simp only [Bool.and_eq_true] at hoth'
        rw [← hs', ← baseTable_failed runs e' he']
        exact hoth'.1
      have hlit : s = "Success -- CCS generated" := by
        rw [← hos']
        rfl
      rw [hlit] at hfail
      exact absurd hfail (by decide)
  · -- (d) per-run collapse
    intro p hp hcand
    rcases hcand with ⟨e', he', hn', hoth'⟩
    have hpname : p.1 ∈ otherNames m (baseTable runs) := by
      refine (mem_otherNames m (baseTable runs) p.1).mpr ⟨e', ?_, hn'⟩
      exact List.mem_filter.mpr ⟨he', hoth'⟩
    constructor
    · -- exactly one synthetic row for this run
      rw [countP_zmw_stats]
      have hsplit : ∀ l1 l2 : List AggRow, (l1 ++ l2).countP
          (fun e => (toRaw e).name == p.1 && (toRaw e).status == "Failed -- Other reason")
          = l1.countP (fun e => (toRaw e).name == p.1 && (toRaw e).status == "Failed -- Other reason")
            + l2.countP (fun e => (toRaw e).name == p.1 && (toRaw e).status == "Failed -- Other reason") :=
        fun l1 l2 => List.countP_append _ l1 l2
      have hkept : ∀ (q : AggRow → Bool) (l : List AggRow), (∀ e ∈ l, e ∈ baseTable runs) →
          ((l.filter q).countP
            (fun e => (toRaw e).name == p.1 && (toRaw e).status == "Failed -- Other reason")) = 0 := by
        intro q l hl
        refine List.countP_eq_zero.mpr ?_
        intro e he
        have hb := hl e (List.mem_filter.mp he).1
        have hgood := baseTable_good runs hWF e hb
        simp only [Bool.and_eq_true, beq_iff_eq]
        rintro ⟨_, hst⟩
        exact hgood.1 hst
      have hother : (otherDf m (baseTable runs)).countP
          (fun e => (toRaw e).name == p.1 && (toRaw e).status == "Failed -- Other reason") = 1 := by
        rw [otherDf_eq_map, List.countP_map]
        have hpred : ∀ n : String,
            ((fun e => (toRaw e).name == p.1 && (toRaw e).status == "Failed -- Other reason")
              ∘ otherRow m (baseTable runs)) n = (n == p.1) := by
          intro n
          show ((otherRow m (baseTable runs) n).name == p.1 &&
            ((otherRow m (baseTable runs) n).status == "Failed -- Other reason")) = (n == p.1)
          rw [otherRow_name, otherRow_status]
          simp
        rw [List.countP_congr (fun n _ => by rw [hpred n])]
        have : (otherNames m (baseTable runs)).countP (fun n => n == p.1)
            = (otherNames m (baseTable runs)).count p.1 := rfl
        rw [this]
        exact List.count_eq_one_of_mem (nodup_groupKeys _) hpname
      cases g with
      | false =>
        rw [aggTable_false, hsplit, hother,
          hkept _ _ (fun e he => he)]
      | true =>
        rw [aggTable_true, hsplit, hsplit, hother,
          hkept _ _ (fun e he => he)]
        have hsucc : (successDf (afterOther m (baseTable runs))).countP
            (fun e => (toRaw e).name == p.1 && (toRaw e).status == "Failed -- Other reason") = 0 := by
          refine List.countP_eq_zero.mpr ?_
          intro e he
          rcases (mem_successDf _ e).mp he with ⟨n, _, rfl⟩
          simp only [Bool.and_eq_true, beq_iff_eq]
          rintro ⟨_, hst⟩
          exact absurd
            (show ("Success -- CCS generated" : String) = "Failed -- Other reason" from hst)
            (by decide)
        rw [hsucc]
    · -- the synthetic row and its sums
      refine ⟨toRaw (otherRow m (baseTable runs) p.1), ?_, rfl, rfl, ?_, ?_⟩
      · refine (mem_zmw_stats runs m g _).mpr ⟨otherRow m (baseTable runs) p.1, ?_, rfl⟩
        refine otherDf_subset_aggTable runs m g _ ?_
        exact (mem_otherDf m (baseTable runs) _).mpr ⟨p.1, hpname, rfl⟩
      · show (otherRow m (baseTable runs) p.1).number = _
        show (((otherCands m (baseTable runs)).filter
            (fun e => e.name == p.1)).map (·.number)).sum = _
        rw [hfilter]
      · show (otherRow m (baseTable runs) p.1).fraction = _
        show qsum (((otherCands m (baseTable runs)).filter
            (fun e => e.name == p.1)).map (·.fraction)) = _
        rw [hfilter, qsum_eq]

def c2RunA : String × List CatRow :=
  ("a", [⟨"Success -- CCS generated", 99, mkRat 99 100⟩,
         ⟨"Failed -- Rare", 1, mkRat 1 200⟩,
         ⟨"Failed -- Big", 50, mkRat 1 2⟩])

def c2RunB : String × List CatRow :=
  ("b", [⟨"Success -- CCS generated", 99, mkRat 99 100⟩,
         ⟨"Failed -- Rare", 1, mkRat 1 300⟩])

def c2Runs : List (String × List CatRow) := [c2RunA, c2RunB]

theorem claim_C2_witness :
    (∀ o ∈ zmw_stats c2Runs (mkRat 1 100) true, o.status ≠ "Failed -- Rare") ∧
    (zmw_stats c2Runs (mkRat 1 100) true).countP
        (fun o => o.name == "a" && o.status == "Failed -- Other reason") = 1 :=
  have h := claim_C2_rare_failure_grouping c2Runs (mkRat 1 100) true (by decide)
  ⟨h.2.2.1 "Failed -- Rare" (by decide),
   (h.2.2.2 c2RunA (by decide) (by decide)).1⟩

/-! ## Claim C10 -/

/-- C10: a run with no rare-failure candidate rows receives no
`Failed -- Other reason` row; and any run that does own a candidate
row receives one, so the harmonized table need not contain the same
set of status rows for every run. -/
theorem claim_C10_no_candidate_no_synthetic (runs : List (String × List CatRow)) (m : ℚ)
    (g : Bool) (hWF : WFruns runs) (p : String × List CatRow) (hp : p ∈ runs)
    (hno : ∀ e ∈ baseTable runs, e.name = p.1 → isOther m e = false) :
    (∀ o ∈ zmw_stats runs m g, o.name = p.1 → o.status ≠ "Failed -- Other reason") ∧
    (∀ q : String, (∃ e ∈ baseTable runs, e.name = q ∧ isOther m e = true) →
      ∃ o ∈ zmw_stats runs m g, o.name = q ∧ o.status = "Failed -- Other reason") := by
  constructor
  · intro o ho hname hstatus
    rcases (mem_zmw_stats runs m g o).mp ho with ⟨e, he, rfl⟩
    have hname' : e.name = p.1 := hname
    have hstatus' : e.status = "Failed -- Other reason" := hstatus
    rcases mem_aggTable_cases runs m g e he with ⟨hb, _, _⟩ | ⟨n, hn, rfl⟩ | ⟨_, n, _, rfl⟩
    · exact (baseTable_good runs hWF e hb).1 hstatus'
    · rcases (mem_otherNames m (baseTable runs) n).mp hn with ⟨e', he', hn'⟩
      have hb' := List.mem_filter.mp he'
      have hoth' := hb'.2
      have : e'.name = p.1 := by rw [hn']; exact hname'
      rw [hno e' hb'.1 this] at hoth'
      exact absurd hoth' (by simp)
    · exact absurd
        (show ("Success -- CCS generated" : String) = "Failed -- Other reason" from hstatus')
        (by decide)
  · intro q hq
    rcases hq with ⟨e', he', hn', hoth'⟩
    have hqname : q ∈ otherNames m (baseTable runs) :=
      (mem_otherNames m (baseTable runs) q).mpr ⟨e', List.mem_filter.mpr ⟨he', hoth'⟩, hn'⟩
    refine ⟨toRaw (otherRow m (baseTable runs) q), ?_, rfl, rfl⟩
    refine (mem_zmw_stats runs m g _).mpr ⟨otherRow m (baseTable runs) q, ?_, rfl⟩
    exact otherDf_subset_aggTable runs m g _
      ((mem_otherDf m (baseTable runs) _).mpr ⟨q, hqname, rfl⟩)

def c10RunA : String × List CatRow :=
  ("a", [⟨"Success -- CCS generated", 99, mkRat 99 100⟩,
         ⟨"Failed -- Rare", 1, mkRat 1 200⟩])

def c10RunB : String × List CatRow :=
  ("b", [⟨"Success -- CCS generated", 100, 1⟩])

def c10Runs : List (String × List CatRow) := [c10RunA, c10RunB]

theorem claim_C10_witness :
    (∀ o ∈ zmw_stats c10Runs (mkRat 1 100) true, o.name = "b" →
      o.status ≠ "Failed -- Other reason") ∧
    (∃ o ∈ zmw_stats c10Runs (mkRat 1 100) true, o.name = "a" ∧
      o.status = "Failed -- Other reason") :=
  have h := claim_C10_no_candidate_no_synthetic c10Runs (mkRat 1 100) true (by decide)
    c10RunB (by decide) (by decide)
  ⟨h.1, h.2 "a" (by decide)⟩

/-! ## Per-run extraction from the long table -/

theorem concatRuns_cons (q : String × List CatRow) (rest : List (String × List CatRow)) :
    concatRuns (q :: rest) = q.2.map (rawOf q.1) ++ concatRuns rest := rfl

theorem concat_filter_name (runs : List (String × List CatRow))
    (hnd : (runs.map (·.1)).Nodup) :
    ∀ p ∈ runs, (concatRuns runs).filter (fun r => r.name == p.1) = p.2.map (rawOf p.1) := by
  induction runs with
  | nil => intro p hp; exact absurd hp (by simp)
  | cons q rest ih =>
    intro p hp
    rw [List.map_cons, List.nodup_cons] at hnd
    rw [concatRuns_cons, List.filter_append]
    rcases List.mem_cons.mp hp with rfl | hp
    · have h1 : (p.2.map (rawOf p.1)).filter (fun r => r.name == p.1) = p.2.map (rawOf p.1) := by
        refine List.filter_eq_self.mpr ?_
        intro r hr
        rcases List.mem_map.mp hr with ⟨c, _, rfl⟩
        simp [rawOf]
      have h2 : (concatRuns rest).filter (fun r => r.name == p.1) = [] := by
        refine List.filter_eq_nil_iff.mpr ?_
        intro r hr
        rcases (mem_concatRuns rest r).mp hr with ⟨p', hp', c', _, rfl⟩
        simp only [rawOf, beq_iff_eq]
        intro hcontra
        exact hnd.1 (hcontra ▸ List.mem_map.mpr ⟨p', hp', rfl⟩)
      rw [h1, h2, List.append_nil]
    · have hq : q.1 ≠ p.1 := fun h => hnd.1 (h ▸ List.mem_map.mpr ⟨p, hp, rfl⟩)
      have h1 : (q.2.map (rawOf q.1)).filter (fun r => r.name == p.1) = [] := by
        refine List.filter_eq_nil_iff.mpr ?_
        intro r hr
        rcases List.mem_map.mp hr with ⟨c, _, rfl⟩
        simp only [rawOf, beq_iff_eq]
        exact hq
      rw [h1, List.nil_append, ih hnd.2 p hp]

theorem baseTable_filter_name (runs : List (String × List CatRow))
    (hnd : (runs.map (·.1)).Nodup) (p : String × List CatRow) (hp : p ∈ runs) :
    (baseTable runs).filter (fun e => e.name == p.1)
      = (p.2.map (rawOf p.1)).map (aggOf (concatRuns runs)) := by
  rw [baseTable, withCols_eq_map, List.filter_map]
  have hpred : ∀ r ∈ concatRuns runs,
      ((fun e => e.name == p.1) ∘ aggOf (concatRuns runs)) r = (r.name == p.1) := fun r _ => rfl
  rw [List.filter_congr hpred, concat_filter_name runs hnd p hp]

/-- The per-run success group of `success_df` is exactly the run's own
success rows, carried over from the input table. -/
theorem succGroup_eq (runs : List (String × List CatRow)) (m : ℚ) (hWF : WFruns runs)
    (p : String × List CatRow) (hp : p ∈ runs) :
    (succRows (afterOther m (baseTable runs))).filter (fun e => e.name == p.1)
      = (p.2.filter (fun c => strLeads "Success" c.status)).map
          (fun c => aggOf (concatRuns runs) (rawOf p.1 c)) := by
  rw [succRows_afterOther runs m hWF, List.filter_filter]
  have hcomm : (baseTable runs).filter (fun a => a.name == p.1 && strLeads "Success" a.status)
      = (baseTable runs).filter (fun a => strLeads "Success" a.status && a.name == p.1) :=
    List.filter_congr (fun e _ => by rw [Bool.and_comm])
  have h1 : (baseTable runs).filter (fun a => strLeads "Success" a.status && a.name == p.1)
      = ((baseTable runs).filter (fun e => e.name == p.1)).filter
          (fun e => strLeads "Success" e.status) :=
    (List.filter_filter _ _).symm
  rw [hcomm, h1, baseTable_filter_name runs hWF.1 p hp, List.filter_map, List.filter_map]
  have h2 : ∀ c ∈ p.2,
      (((fun e => strLeads "Success" e.status) ∘ aggOf (concatRuns runs)) ∘ rawOf p.1) c
        = strLeads "Success" c.status := fun c _ => rfl
  rw [List.filter_congr h2, List.map_map]
  rfl

/-! ## Claim C9 -/

/-- C9: with success grouping enabled, every run owning at least one
`^Success` row gets exactly one `Success -- CCS generated` row, whose
`number` and `fraction` are the per-run sums over the run's success
rows, and no other success-marker row survives for any run. -/
theorem claim_C9_success_grouping (runs : List (String × List CatRow)) (m : ℚ)
    (hWF : WFruns runs) :
    ∀ p ∈ runs, (∃ c ∈ p.2, strLeads "Success" c.status = true) →
      (zmw_stats runs m true).countP
          (fun o => o.name == p.1 && o.status == "Success -- CCS generated") = 1 ∧
      (∃ o ∈ zmw_stats runs m true, o.name = p.1 ∧ o.status = "Success -- CCS generated" ∧
        o.number = ((p.2.filter (fun c => strLeads "Success" c.status)).map (·.number)).sum ∧
        o.fraction = ((p.2.filter (fun c => strLeads "Success" c.status)).map (·.fraction)).sum) ∧
      (∀ o ∈ zmw_stats runs m true, strLeads "Success" o.status = true →
        o.status = "Success -- CCS generated") := by
  intro p hp hsucc
  rcases hsucc with ⟨c, hc, hcs⟩
  have hcmem : aggOf (concatRuns runs) (rawOf p.1 c) ∈ succRows (afterOther m (baseTable runs)) := by
    rw [succRows_afterOther runs m hWF]
    refine List.mem_filter.mpr ⟨(mem_baseTable runs _).mpr ⟨p, hp, c, hc, rfl⟩, hcs⟩
  have hpname : p.1 ∈ succNames (afterOther m (baseTable runs)) :=
    (mem_succNames _ p.1).mpr ⟨aggOf (concatRuns runs) (rawOf p.1 c), hcmem, rfl⟩
  refine ⟨?_, ?_, ?_⟩
  · -- exactly one success row for this run
    rw [countP_zmw_stats, aggTable_true, List.countP_append, List.countP_append]
    have hkept : ((baseTable runs).filter
        (fun e => !isOther m e && !strLeads "Success" e.status)).countP
        (fun e => (toRaw e).name == p.1 && (toRaw e).status == "Success -- CCS generated") = 0 := by
      refine List.countP_eq_zero.mpr ?_
      intro e he
      have hf := (List.mem_filter.mp he).2
      simp only [Bool.and_eq_true, Bool.not_eq_eq_eq_not, Bool.not_true] at hf
      simp only [Bool.and_eq_true, beq_iff_eq]
      rintro ⟨_, hst⟩
      have : strLeads "Success" e.status = true := by
        have he' : e.status = "Success -- CCS generated" := hst
        rw [he']
        decide
      rw [this] at hf
      exact absurd hf.2 (by simp)
    have hother : (otherDf m (baseTable runs)).countP
        (fun e => (toRaw e).name == p.1 && (toRaw e).status == "Success -- CCS generated") = 0 := by
      refine List.countP_eq_zero.mpr ?_
      intro e he
      rcases (mem_otherDf _ _ e).mp he with ⟨n, _, rfl⟩
      simp only [Bool.and_eq_true, beq_iff_eq]
      rintro ⟨_, hst⟩
      exact absurd
        (show ("Failed -- Other reason" : String) = "Success -- CCS generated" from hst)
        (by decide)
    have hsuccdf : (successDf (afterOther m (baseTable runs))).countP
        (fun e => (toRaw e).name == p.1 && (toRaw e).status == "Success -- CCS generated") = 1 := by
      rw [successDf, List.countP_map]
      have hpred : ∀ n : String,
          ((fun e => (toRaw e).name == p.1 && (toRaw e).status == "Success -- CCS generated")
            ∘ succRow (afterOther m (baseTable runs))) n = (n == p.1) := by
        intro n
        show ((succRow (afterOther m (baseTable runs)) n).name == p.1 &&
          ((succRow (afterOther m (baseTable runs)) n).status == "Success -- CCS generated"))
            = (n == p.1)
        rw [succRow_name, succRow_status]
        simp
      rw [List.countP_congr (fun n _ => by rw [hpred n])]
      exact List.count_eq_one_of_mem (nodup_groupKeys _) hpname
    rw [hkept, hother, hsuccdf]
  · -- the synthetic row and its sums
    refine ⟨toRaw (succRow (afterOther m (baseTable runs)) p.1), ?_, rfl, rfl, ?_, ?_⟩
    · refine (mem_zmw_stats runs m true _).mpr ⟨succRow (afterOther m (baseTable runs)) p.1, ?_, rfl⟩
      rw [aggTable_true]
      refine List.mem_append.mpr (Or.inr (List.mem_append.mpr (Or.inr ?_)))
      exact (mem_successDf _ _).mpr ⟨p.1, hpname, rfl⟩
    · show (succRow (afterOther m (baseTable runs)) p.1).number = _
      show (((succRows (afterOther m (baseTable runs))).filter
          (fun e => e.name == p.1)).map (·.number)).sum = _
      rw [succGroup_eq runs m hWF p hp, List.map_map]
      rfl
    · show (succRow (afterOther m (baseTable runs)) p.1).fraction = _
      show qsum (((succRows (afterOther m (baseTable runs))).filter
          (fun e => e.name == p.1)).map (·.fraction)) = _
      rw [succGroup_eq runs m hWF p hp, qsum_eq, List.map_map]
      rfl
  · -- no other success-marker row survives
    intro o ho hlead
    rcases (mem_zmw_stats runs m true o).mp ho with ⟨e, he, rfl⟩
    have hlead' : strLeads "Success" e.status = true := hlead
    rcases mem_aggTable_cases runs m true e he with ⟨_, _, hns⟩ | ⟨n, _, rfl⟩ | ⟨_, n, _, rfl⟩
    · rw [hns rfl] at hlead'
      exact absurd hlead' (by simp)
    · have : strLeads "Success" "Failed -- Other reason" = true := hlead'
      exact absurd this (by decide)
    · rfl

def c9Run1 : String × List CatRow :=
  ("run1", [⟨"Success (without retry)", 100, mkRat 20 21⟩,
            ⟨"Success (with retry)", 5, mkRat 1 21⟩])

def c9Runs : List (String × List CatRow) := [c9Run1]

theorem claim_C9_witness :
    (zmw_stats c9Runs (mkRat 1 100) true).countP
        (fun o => o.name == "run1" && o.status == "Success -- CCS generated") = 1 ∧
    (∃ o ∈ zmw_stats c9Runs (mkRat 1 100) true, o.name = "run1" ∧
      o.status = "Success -- CCS generated" ∧ o.number = 105 ∧ o.fraction = 1) := by
  have h := claim_C9_success_grouping c9Runs (mkRat 1 100) (by decide)
    c9Run1 (by decide) (by decide)
  refine ⟨h.1, ?_⟩
  rcases h.2.1 with ⟨o, ho, hname, hstatus, hnum, hfrac⟩
  refine ⟨o, ho, hname, hstatus, ?_, ?_⟩
  · rw [hnum]; decide
  · rw [hfrac]
    have hlist : ((c9Run1.2.filter (fun c => strLeads "Success" c.status)).map (·.fraction))
        = [mkRat 20 21, mkRat 1 21] := by decide
    rw [hlist, List.sum_cons, List.sum_cons, List.sum_nil,
      show (mkRat 20 21) = 20 / 21 from by rw [Rat.mkRat_eq_div]; norm_num,
      show (mkRat 1 21) = 1 / 21 from by rw [Rat.mkRat_eq_div]; norm_num]
    norm_num

/-! ## Lemmas for the ordering claim -/

theorem agg_failed_eq (runs : List (String × List CatRow)) (m : ℚ) (g : Bool)
    (hWF : WFruns runs) :
    ∀ e ∈ aggTable runs m g, e.failed = strContainsB e.status "Failed" := by
  intro e he
  rcases mem_aggTable_cases runs m g e he with ⟨hb, _, _⟩ | ⟨n, hn, rfl⟩ | ⟨_, n, hn, rfl⟩
  · exact baseTable_failed runs e hb
  · rw [otherRow_failed m _ n hn, otherRow_status]
    decide
  · rw [succRow_failed runs m hWF n, succRow_status]
    decide

theorem agg_status_mem (es : List AggRow) : ∀ e ∈ es, e.status ∈ statusOrder es := by
  intro e he
  rw [statusOrder, mem_uniqueFirst]
  exact List.mem_map.mpr ⟨e, (List.perm_insertionSort stRel es).mem_iff.mpr he, rfl⟩

/-- If every row of status `A` must come strictly before every row of
status `B` in the `stRel` sort (expressed as: `stRel` never lets a
`B`-row precede an `A`-row), then `A` precedes `B` in the status
categories. -/
theorem statusOrder_lt (es : List AggRow) (A B : String) (hAB : A ≠ B)
    (hA : ∃ e ∈ es, e.status = A) (hB : ∃ e ∈ es, e.status = B)
    (h : ∀ a ∈ es, ∀ b ∈ es, a.status = A → b.status = B → ¬ stRel b a) :
    posOf (statusOrder es) A < posOf (statusOrder es) B := by
  have hperm := List.perm_insertionSort stRel es
  have hsorted : List.Pairwise stRel (List.insertionSort stRel es) :=
    List.sorted_insertionSort stRel es
  have hAmem : A ∈ (List.insertionSort stRel es).map (·.status) := by
    rcases hA with ⟨e, he, rfl⟩
    exact List.mem_map.mpr ⟨e, hperm.mem_iff.mpr he, rfl⟩
  have hBmem : B ∈ (List.insertionSort stRel es).map (·.status) := by
    rcases hB with ⟨e, he, rfl⟩
    exact List.mem_map.mpr ⟨e, hperm.mem_iff.mpr he, rfl⟩
  have hgetA := getElem?_posOf _ A hAmem
  have hgetB := getElem?_posOf _ B hBmem
  have hi0 := posOf_lt_length _ A hAmem
  have hj0 := posOf_lt_length _ B hBmem
  have hi : posOf ((List.insertionSort stRel es).map (·.status)) A
      < (List.insertionSort stRel es).length := by simpa using hi0
  have hj : posOf ((List.insertionSort stRel es).map (·.status)) B
      < (List.insertionSort stRel es).length := by simpa using hj0
  rw [List.getElem?_eq_getElem hi0] at hgetA
  rw [List.getElem?_eq_getElem hj0] at hgetB
  injection hgetA with hgetA
  injection hgetB with hgetB
  rw [List.getElem_map] at hgetA hgetB
  have hne : posOf ((List.insertionSort stRel es).map (·.status)) A
      ≠ posOf ((List.insertionSort stRel es).map (·.status)) B :=
    fun hEq => hAB (posOf_inj _ A B hAmem hBmem hEq)
  have hij : posOf ((List.insertionSort stRel es).map (·.status)) A
      < posOf ((List.insertionSort stRel es).map (·.status)) B := by
    rcases Nat.lt_trichotomy (posOf ((List.insertionSort stRel es).map (·.status)) A)
        (posOf ((List.insertionSort stRel es).map (·.status)) B) with hlt | hEq | hgt
    · exact hlt
    · exact absurd hEq hne
    · exfalso
      have hrel := List.pairwise_iff_get.mp hsorted
        ⟨posOf ((List.insertionSort stRel es).map (·.status)) B, hj⟩
        ⟨posOf ((List.insertionSort stRel es).map (·.status)) A, hi⟩ hgt
      have hmemA : (List.insertionSort stRel es).get
          ⟨posOf ((List.insertionSort stRel es).map (·.status)) A, hi⟩ ∈ es :=
        hperm.mem_iff.mp (List.get_mem _ _ _)
      have hmemB : (List.insertionSort stRel es).get
          ⟨posOf ((List.insertionSort stRel es).map (·.status)) B, hj⟩ ∈ es :=
        hperm.mem_iff.mp (List.get_mem _ _ _)
      exact h _ hmemA _ hmemB (by simpa using hgetA) (by simpa using hgetB) hrel
  rw [statusOrder]
  exact uniqueFirst_posOf_mono _ A B hAB hAmem hBmem hij

theorem concat_keys_nodup (runs : List (String × List CatRow))
    (hnames : (runs.map (·.1)).Nodup)
    (hstat : ∀ p ∈ runs, (p.2.map (·.status)).Nodup) :
    ((concatRuns runs).map (fun r => (r.name, r.status))).Nodup := by
  induction runs with
  | nil => simp [concatRuns]
  | cons q rest ih =>
    rw [List.map_cons, List.nodup_cons] at hnames
    rw [concatRuns_cons, List.map_append, List.nodup_append]
    refine ⟨?_, ih hnames.2 (fun p hp => hstat p (List.mem_cons_of_mem q hp)), ?_⟩
    · have hq := hstat q (List.mem_cons_self q rest)
      have heq : (q.2.map (rawOf q.1)).map (fun r => (r.name, r.status))
          = (q.2.map (·.status)).map (fun s => (q.1, s)) := by
        rw [List.map_map, List.map_map]
        rfl
      rw [heq]
      exact hq.map (fun s t hst => (Prod.mk.injEq _ _ _ _ ▸ hst : _ ∧ _).2)
    · intro k hk1 hk2
      rcases List.mem_map.mp hk1 with ⟨r, hr, rfl⟩
      rcases List.mem_map.mp hr with ⟨c, _, rfl⟩
      rcases List.mem_map.mp hk2 with ⟨r', hr', hkey⟩
      rcases (mem_concatRuns rest r').mp hr' with ⟨p', hp', c', _, rfl⟩
      have hfst := congrArg Prod.fst hkey
      have hname : p'.1 = q.1 := hfst
      exact hnames.1 (hname ▸ List.mem_map.mpr ⟨p', hp', rfl⟩)

theorem baseTable_keys_eq (runs : List (String × List CatRow)) :
    (baseTable runs).map (fun e => (e.name, e.status))
      = (concatRuns runs).map (fun r => (r.name, r.status)) := by
  rw [baseTable, withCols_eq_map, List.map_map]
  rfl

theorem aggTable_keys_nodup (runs : List (String × List CatRow)) (m : ℚ) (g : Bool)
    (hWF : WFruns runs) :
    ((aggTable runs m g).map (fun e => (e.name, e.status))).Nodup := by
  have hbase : ((baseTable runs).map (fun e => (e.name, e.status))).Nodup := by
    rw [baseTable_keys_eq]
    exact concat_keys_nodup runs hWF.1 hWF.2.1
  have hkept : ∀ q : AggRow → Bool,
      (((baseTable runs).filter q).map (fun e => (e.name, e.status))).Nodup := by
    intro q
    exact hbase.sublist ((List.filter_sublist _).map _)
  have hotherkeys : (otherDf m (baseTable runs)).map (fun e => (e.name, e.status))
      = (otherNames m (baseTable runs)).map (fun n => (n, "Failed -- Other reason")) := by
    rw [otherDf_eq_map, List.map_map]
    rfl
  have hother : ((otherDf m (baseTable runs)).map (fun e => (e.name, e.status))).Nodup := by
    rw [hotherkeys]
    exact (nodup_groupKeys _).map
      (fun s t hst => (Prod.mk.injEq _ _ _ _ ▸ hst : _ ∧ _).1)
  have hsucckeys : (successDf (afterOther m (baseTable runs))).map
        (fun e => (e.name, e.status))
      = (succNames (afterOther m (baseTable runs))).map
          (fun n => (n, "Success -- CCS generated")) := by
    rw [successDf, List.map_map]
    rfl
  have hsucc : ((successDf (afterOther m (baseTable runs))).map
      (fun e => (e.name, e.status))).Nodup := by
    rw [hsucckeys]
    exact (nodup_groupKeys _).map
      (fun s t hst => (Prod.mk.injEq _ _ _ _ ▸ hst : _ ∧ _).1)
  have hdisj_kept_other : ∀ q : AggRow → Bool,
      (((baseTable runs).filter q).map (fun e => (e.name, e.status))).Disjoint
        ((otherDf m (baseTable runs)).map (fun e => (e.name, e.status))) := by
    intro q k hk1 hk2
    rcases List.mem_map.mp hk1 with ⟨e, he, rfl⟩
    rcases List.mem_map.mp hk2 with ⟨e', he', hkey⟩
    rcases (mem_otherDf _ _ e').mp he' with ⟨n, _, rfl⟩
    have hsnd := congrArg Prod.snd hkey
    have hst : "Failed -- Other reason" = e.status := hsnd
    exact (baseTable_good runs hWF e (List.mem_filter.mp he).1).1 hst.symm
  cases g with
  | false =>
    rw [aggTable_false, List.map_append, List.nodup_append]
    exact ⟨hkept _, hother, hdisj_kept_other _⟩
  | true =>
    rw [aggTable_true, List.map_append, List.map_append, List.nodup_append,
      List.nodup_append]
    refine ⟨hkept _, ⟨hother, hsucc, ?_⟩, ?_⟩
    · -- otherDf keys disjoint from successDf keys
      intro k hk1 hk2
      rcases List.mem_map.mp hk1 with ⟨e, he, rfl⟩
      rcases (mem_otherDf _ _ e).mp he with ⟨n, _, rfl⟩
      rcases List.mem_map.mp hk2 with ⟨e', he', hkey⟩
      rcases (mem_successDf _ e').mp he' with ⟨n', _, rfl⟩
      have := congrArg Prod.snd hkey
      simp only [otherRow_status, succRow_status] at this
      exact absurd this (by decide)
    · -- kept keys disjoint from the synthetic keys
      intro k hk1 hk2
      rcases List.mem_map.mp hk1 with ⟨e, he, rfl⟩
      have hm := List.mem_filter.mp he
      have hlead : strLeads "Success" e.status = false := by
        have := hm.2
        simp only [Bool.and_eq_true, Bool.not_eq_eq_eq_not, Bool.not_true] at this
        exact this.2
      rcases List.mem_append.mp hk2 with hk2 | hk2
      · exact hdisj_kept_other _ (List.mem_map.mpr ⟨e, he, rfl⟩) hk2
      · rcases List.mem_map.mp hk2 with ⟨e', he', hkey⟩
        rcases (mem_successDf _ e').mp he' with ⟨n', _, rfl⟩
        have hsnd := congrArg Prod.snd hkey
        have hst : "Success -- CCS generated" = e.status := hsnd
        rw [← hst] at hlead
        exact absurd hlead (by decide)

theorem zmw_stats_eq (runs : List (String × List CatRow)) (m : ℚ) (g : Bool) :
    zmw_stats runs m g = (List.insertionSort
      (finalRel (runs.map (·.1)) (statusOrder (aggTable runs m g)))
      (aggTable runs m g)).map toRaw := rfl

/-! ## Claim C8 -/

/-- C8: in the harmonized table, (i) rows are grouped by run in input
order; within a run the status positions (in the single shared
category order) strictly increase, so every run shows the statuses in
the same order, and a failure-marker status never precedes a
non-failure status within a run; (ii) for two distinct statuses in the
same failed/non-failed partition, if every row of the first has
strictly greater `max_fraction` than every row of the second, the
first precedes the second in the category order — in particular two
failed statuses are ordered by descending cross-run `max_fraction`,
identically for every run. -/
theorem claim_C8_ordering (runs : List (String × List CatRow)) (m : ℚ) (g : Bool)
    (hWF : WFruns runs) :
    (zmw_stats runs m g).Pairwise (fun a b =>
      posOf (runs.map (·.1)) a.name ≤ posOf (runs.map (·.1)) b.name ∧
      (a.name = b.name →
        posOf (statusOrder (aggTable runs m g)) a.status
          < posOf (statusOrder (aggTable runs m g)) b.status ∧
        (strContainsB a.status "Failed" = true → strContainsB b.status "Failed" = true))) ∧
    (∀ A B : String, strContainsB A "Failed" = strContainsB B "Failed" → A ≠ B →
      (∃ e ∈ aggTable runs m g, e.status = A) → (∃ e ∈ aggTable runs m g, e.status = B) →
      (∀ a ∈ aggTable runs m g, ∀ b ∈ aggTable runs m g,
        a.status = A → b.status = B → b.max_fraction < a.max_fraction) →
      posOf (statusOrder (aggTable runs m g)) A < posOf (statusOrder (aggTable runs m g)) B) := by
  constructor
  · rw [zmw_stats_eq, List.pairwise_map]
    have hperm : (List.insertionSort
        (finalRel (runs.map (·.1)) (statusOrder (aggTable runs m g)))
        (aggTable runs m g)).Perm (aggTable runs m g) := List.perm_insertionSort _ _
    have hsorted := List.sorted_insertionSort
      (finalRel (runs.map (·.1)) (statusOrder (aggTable runs m g))) (aggTable runs m g)
    have hkeys : ((List.insertionSort
        (finalRel (runs.map (·.1)) (statusOrder (aggTable runs m g)))
        (aggTable runs m g)).map (fun e => (e.name, e.status))).Nodup :=
      (hperm.map _).nodup_iff.mpr (aggTable_keys_nodup runs m g hWF)
    have hkeysP := List.pairwise_map.mp hkeys
    rw [List.pairwise_iff_get]
    intro i j hij
    have hrel := List.pairwise_iff_get.mp hsorted i j hij
    have hkne := List.pairwise_iff_get.mp hkeysP i j hij
    have hamem : (List.insertionSort
        (finalRel (runs.map (·.1)) (statusOrder (aggTable runs m g)))
        (aggTable runs m g)).get i ∈ aggTable runs m g :=
      hperm.mem_iff.mp (List.get_mem _ _ _)
    have hbmem : (List.insertionSort
        (finalRel (runs.map (·.1)) (statusOrder (aggTable runs m g)))
        (aggTable runs m g)).get j ∈ aggTable runs m g :=
      hperm.mem_iff.mp (List.get_mem _ _ _)
    constructor
    · rcases hrel with h | ⟨h, _⟩
      · exact le_of_lt h
      · exact le_of_eq h
    · intro hnameEq
      have hstatusNe : ((List.insertionSort
          (finalRel (runs.map (·.1)) (statusOrder (aggTable runs m g)))
          (aggTable runs m g)).get i).status ≠ ((List.insertionSort
          (finalRel (runs.map (·.1)) (statusOrder (aggTable runs m g)))
          (aggTable runs m g)).get j).status := by
        intro hse
        refine hkne ?_
        have hnameEq' : ((List.insertionSort
            (finalRel (runs.map (·.1)) (statusOrder (aggTable runs m g)))
            (aggTable runs m g)).get i).name = ((List.insertionSort
            (finalRel (runs.map (·.1)) (statusOrder (aggTable runs m g)))
            (aggTable runs m g)).get j).name := hnameEq
        rw [hnameEq', hse]
      have hps : posOf (statusOrder (aggTable runs m g)) ((List.insertionSort
          (finalRel (runs.map (·.1)) (statusOrder (aggTable runs m g)))
          (aggTable runs m g)).get i).status ≤ posOf (statusOrder (aggTable runs m g))
            ((List.insertionSort
          (finalRel (runs.map (·.1)) (statusOrder (aggTable runs m g)))
          (aggTable runs m g)).get j).status := by
        rcases hrel with h | ⟨_, h⟩
        · exfalso
          have hnameEq' : ((List.insertionSort
              (finalRel (runs.map (·.1)) (statusOrder (aggTable runs m g)))
              (aggTable runs m g)).get i).name = ((List.insertionSort
              (finalRel (runs.map (·.1)) (statusOrder (aggTable runs m g)))
              (aggTable runs m g)).get j).name := hnameEq
          rw [hnameEq'] at h
          exact lt_irrefl _ h
        · exact h
      have hstrict : posOf (statusOrder (aggTable runs m g)) ((List.insertionSort
          (finalRel (runs.map (·.1)) (statusOrder (aggTable runs m g)))
          (aggTable runs m g)).get i).status < posOf (statusOrder (aggTable runs m g))
            ((List.insertionSort
          (finalRel (runs.map (·.1)) (statusOrder (aggTable runs m g)))
          (aggTable runs m g)).get j).status := by
        rcases Nat.lt_or_ge _ _ with h | h
        · exact h
        · exact absurd (posOf_inj _ _ _
            (agg_status_mem _ _ hamem) (agg_status_mem _ _ hbmem)
            (Nat.le_antisymm hps h)) hstatusNe
      refine ⟨hstrict, ?_⟩
      intro hfa
      by_contra hfb
      have hfb' : strContainsB ((List.insertionSort
          (finalRel (runs.map (·.1)) (statusOrder (aggTable runs m g)))
          (aggTable runs m g)).get j).status "Failed" = false := by
        cases h : strContainsB ((List.insertionSort
            (finalRel (runs.map (·.1)) (statusOrder (aggTable runs m g)))
            (aggTable runs m g)).get j).status "Failed" with
        | false => rfl
        | true => exact absurd h hfb
      have hfa' : strContainsB ((List.insertionSort
          (finalRel (runs.map (·.1)) (statusOrder (aggTable runs m g)))
          (aggTable runs m g)).get i).status "Failed" = true := hfa
      have hlt := statusOrder_lt (aggTable runs m g)
        (((List.insertionSort
          (finalRel (runs.map (·.1)) (statusOrder (aggTable runs m g)))
          (aggTable runs m g)).get j).status)
        (((List.insertionSort
          (finalRel (runs.map (·.1)) (statusOrder (aggTable runs m g)))
          (aggTable runs m g)).get i).status)
        (fun h => hstatusNe h.symm)
        ⟨_, hbmem, rfl⟩ ⟨_, hamem, rfl⟩
        (by
          intro x hx y hy hxB hyA hrel2
          have hyf : y.failed = true := by
            rw [agg_failed_eq runs m g hWF y hy, hyA]
            exact hfa'
          have hxf : x.failed = false := by
            rw [agg_failed_eq runs m g hWF x hx, hxB]
            exact hfb'
          rcases hrel2 with ⟨h1, _⟩ | ⟨h1, _⟩
          · rw [hyf, hxf] at h1
            exact absurd h1 (by simp)
          · rw [hyf] at h1
            exact absurd h1 (by simp))
      exact absurd hlt (Nat.lt_asymm hstrict)
  · intro A B hpart hAB hA hB hdom
    refine statusOrder_lt (aggTable runs m g) A B hAB hA hB ?_
    intro a ha b hb haA hbB hrel
    rcases hrel with ⟨_, h2⟩ | ⟨h1, h2⟩
    · exact absurd h2 (not_le.mpr (hdom a ha b hb haA hbB))
    · rw [agg_failed_eq runs m g hWF b hb, hbB] at h1
      rw [agg_failed_eq runs m g hWF a ha, haA, hpart] at h2
      rw [h1] at h2
      exact absurd h2 (by simp)

def c8Runs : List (String × List CatRow) :=
  [("r1", [⟨"Success -- CCS generated", 90, mkRat 9 10⟩,
           ⟨"Failed -- Alpha", 8, mkRat 2 25⟩,
           ⟨"Failed -- Beta", 2, mkRat 1 50⟩]),
   ("r2", [⟨"Success -- CCS generated", 95, mkRat 19 20⟩,
           ⟨"Failed -- Alpha", 5, mkRat 1 20⟩])]

theorem claim_C8_witness :
    (zmw_stats c8Runs (mkRat 1 100) true).Pairwise (fun a b =>
      posOf (c8Runs.map (·.1)) a.name ≤ posOf (c8Runs.map (·.1)) b.name ∧
      (a.name = b.name →
        posOf (statusOrder (aggTable c8Runs (mkRat 1 100) true)) a.status
          < posOf (statusOrder (aggTable c8Runs (mkRat 1 100) true)) b.status ∧
        (strContainsB a.status "Failed" = true → strContainsB b.status "Failed" = true))) ∧
    posOf (statusOrder (aggTable c8Runs (mkRat 1 100) true)) "Failed -- Alpha"
      < posOf (statusOrder (aggTable c8Runs (mkRat 1 100) true)) "Failed -- Beta" :=
  have h := claim_C8_ordering c8Runs (mkRat 1 100) true (by decide)
  ⟨h.1, h.2 "Failed -- Alpha" "Failed -- Beta" (by decide) (by decide) (by decide) (by decide)
    (by decide)⟩
